import Mathlib

/-!
# Verification of the normflow masked-coupling / MCMC core

This file gives a shallow embedding, over exact rational arithmetic, of the
core algorithms of the normalizing-flow sampler:

* the `Metropolis` accept/reject correction (`src/mcmc/mcmc.py`),
* the batched sampler's accept/reject step (`MCMCSampler._accept_reject_step`),
* the blocked Metropolis-within-Gibbs sweeper (`BlockedMCMCSampler.sweep`),
* the `Mask` partition/concatenation utilities (`src/mask/mask.py`),
* the coupling-list engines with shift and affine atomic transforms and their
  controlled variants (`src/nn/scalar/couplings_v2_.py`).

Tensors are modelled as flat lists of rationals in row-major order; the batch
axis, where it matters, is modelled as a list of such flat arrays.  Python
run-time failures (indexing an empty array, using an unbound name, calling a
method on `None`, binding too many positional arguments) are modelled with
`Except`/`Option` results.
-/

namespace NormflowSpec

/-- Kinds of Python run-time errors that the embedded code can raise. -/
inductive PyErr where
  | indexError
  | nameError
  | attributeError
  | typeError
deriving DecidableEq

namespace Metropolis

/-- The loop body of `Metropolis.calc_accept_status`: given the log-uniform
draws `lrand` (the source computes `np.log(np.random.rand(...))`), the
log-ratios `logqp` and the running reference `ref`, emit for each position the
decision `rand_arr[i] < logqp_ref - logqp[i]` and, on acceptance, replace the
running reference by `logqp[i]`. -/
def statusAux (ref : ℚ) : List ℚ → List ℚ → List Bool
  | u :: us, q :: qs =>
      decide (u < ref - q) :: statusAux (if u < ref - q then q else ref) us qs
  | _, _ => []

/-- `Metropolis.calc_accept_status(logqp, logqp_ref)`.  When `logqp_ref` is
`None` the source reads `logqp[0]`, which raises `IndexError` on an empty
input; this failure is modelled by returning `none`. -/
def calc_accept_status (lrand logqp : List ℚ) (logqp_ref : Option ℚ) :
    Option (List Bool) :=
  match logqp_ref with
  | some r => some (statusAux r lrand logqp)
  | none =>
      match logqp with
      | [] => none
      | q :: _ => some (statusAux q lrand logqp)

/-- The loop body of `Metropolis.calc_accept_indices`: `ind` is the position of
the head of the remaining status list, `cntr` the index of the most recently
accepted position so far (initially 0). -/
def indicesAux : List Bool → Nat → Nat → List Nat
  | [], _, _ => []
  | a :: rest, ind, cntr =>
      let c := if a then ind else cntr
      c :: indicesAux rest (ind + 1) c

/-- `Metropolis.calc_accept_indices(accept_seq)`. -/
def calc_accept_indices (accept_seq : List Bool) : List Nat :=
  indicesAux accept_seq 0 0

/-- `Metropolis.calc_accept_count(status)`.  The source computes
`ind = np.where(status)[0]` and then returns
`ind[0], list(mul) + [len(states) - ind[-1]]`.  Python evaluates the tuple left
to right: `ind[0]` raises `IndexError` when no entry of `status` is `True`;
otherwise the second component evaluates `len(states)` where no name `states`
is bound anywhere in the module (the parameter is called `status`), raising
`NameError`.  The intermediate `mul = ind[1:] - ind[:-1]` always succeeds. -/
def calc_accept_count (status : List Bool) : Except PyErr (Nat × List Nat) :=
  let ind := (List.range status.length).filter (fun i => status.getD i false)
  match ind with
  | [] => .error .indexError
  | i0 :: rest =>
      let _mul := (rest.zip (i0 :: rest)).map (fun p => p.1 - p.2)
      .error .nameError

/-- The running reference value seen by `statusAux` just before position `i`:
`runningRef r0 lrand logqp 0 = r0`, and after examining position `i` the
reference becomes `logqp[i]` exactly when position `i` was accepted. -/
def runningRef (r0 : ℚ) (lrand logqp : List ℚ) : Nat → ℚ
  | 0 => r0
  | i + 1 =>
      let r := runningRef r0 lrand logqp i
      if lrand.getD i 0 < r - logqp.getD i 0 then logqp.getD i 0 else r

end Metropolis

namespace Metropolis

theorem statusAux_length (r : ℚ) (us qs : List ℚ) :
    (statusAux r us qs).length = min us.length qs.length := by
  induction us generalizing r qs with
  | nil => cases qs <;> simp [statusAux]
  | cons u us ih =>
      cases qs with
      | nil => simp [statusAux]
      | cons q qs =>
          simp [statusAux, ih, Nat.succ_min_succ]

theorem runningRef_shift (r0 u q : ℚ) (us qs : List ℚ) (i : Nat) :
    runningRef r0 (u :: us) (q :: qs) (i + 1) =
      runningRef (if u < r0 - q then q else r0) us qs i := by
  induction i with
  | zero => simp [runningRef]
  | succ i ih =>
      show (let r := runningRef r0 (u :: us) (q :: qs) (i + 1);
            if (u :: us).getD (i + 1) 0 < r - (q :: qs).getD (i + 1) 0
            then (q :: qs).getD (i + 1) 0 else r) = _
      simp only [ih, List.getD_cons_succ]
      rfl

theorem statusAux_getD (us qs : List ℚ) (r0 : ℚ) (i : Nat)
    (hlen : us.length = qs.length) (hi : i < qs.length) :
    (statusAux r0 us qs).getD i false =
      decide (us.getD i 0 < runningRef r0 us qs i - qs.getD i 0) := by
  induction qs generalizing us r0 i with
  | nil => simp at hi
  | cons q qs ih =>
      cases us with
      | nil => simp at hlen
      | cons u us =>
          cases i with
          | zero => simp [statusAux, runningRef]
          | succ i =>
              have hlen' : us.length = qs.length := by simpa using hlen
              have hi' : i < qs.length := by simpa using hi
              have := ih us (if u < r0 - q then q else r0) i hlen' hi'
              simp only [statusAux, List.getD_cons_succ, runningRef_shift]
              simpa [decide_eq_true_eq] using this

/-- Proof helper: the value produced by `indicesAux` at offset `i`, where `ind`
is the global position of the head of the remaining list and `cntr` the carried
index of the most recent acceptance. -/
def specIdx (s : List Bool) (ind cntr : Nat) : Nat → Nat
  | 0 => if s.getD 0 false then ind else cntr
  | i + 1 => if s.getD (i + 1) false then ind + i + 1 else specIdx s ind cntr i

theorem specIdx_shift (a : Bool) (s : List Bool) (ind cntr i : Nat) :
    specIdx (a :: s) ind cntr (i + 1) =
      specIdx s (ind + 1) (if a then ind else cntr) i := by
  induction i with
  | zero =>
      show (if (a :: s).getD 1 false then ind + 0 + 1
            else specIdx (a :: s) ind cntr 0) = _
      cases h : s.getD 0 false <;> simp [specIdx, h]
  | succ i ih =>
      show (if (a :: s).getD (i + 2) false then ind + (i + 1) + 1
            else specIdx (a :: s) ind cntr (i + 1)) =
        (if s.getD (i + 1) false then ind + 1 + i + 1
         else specIdx s (ind + 1) (if a then ind else cntr) i)
      rw [ih]
      cases h : s[i + 1]?.getD false <;> simp [List.getD, h] <;> omega

theorem indicesAux_getD (s : List Bool) (ind cntr i : Nat) (hi : i < s.length) :
    (indicesAux s ind cntr).getD i 0 = specIdx s ind cntr i := by
  induction s generalizing ind cntr i with
  | nil => simp at hi
  | cons a s ih =>
      cases i with
      | zero => simp [indicesAux, specIdx]
      | succ i =>
          have hi' : i < s.length := by simpa using hi
          simp only [indicesAux, List.getD_cons_succ, specIdx_shift]
          exact ih (ind + 1) (if a then ind else cntr) i hi'

theorem specIdx_eq_findGreatest (s : List Bool) (i : Nat) :
    specIdx s 0 0 i = Nat.findGreatest (fun k => s.getD k false = true) i := by
  induction i with
  | zero => simp [specIdx, Nat.findGreatest]
  | succ i ih =>
      rw [Nat.findGreatest_succ]
      cases h : s[i + 1]?.getD false <;> simp [specIdx, List.getD, h, ih]

end Metropolis

/-- C9: `Metropolis.calc_accept_indices(status)` maps every position `i` to the
index of the most recent accepted position at or before `i` (with 0 as the
default when no position at or before `i` is accepted, so position 0 maps to
itself regardless of `status[0]`); `Nat.findGreatest P i` is precisely the
largest `k ≤ i` satisfying `P`, or `0` when none does. -/
theorem calc_accept_indices_most_recent (status : List Bool) (i : Nat)
    (hi : i < status.length) :
    (Metropolis.calc_accept_indices status).getD i 0 =
      Nat.findGreatest (fun k => status.getD k false = true) i := by
  rw [Metropolis.calc_accept_indices, Metropolis.indicesAux_getD status 0 0 i hi,
    Metropolis.specIdx_eq_findGreatest]

/-- Witness for C9 at `status = [false, true, false]`, `i = 2`: the most recent
accepted position at or before 2 is 1. -/
theorem calc_accept_indices_most_recent_witness :
    (Metropolis.calc_accept_indices [false, true, false]).getD 2 0 =
      Nat.findGreatest (fun k => [false, true, false].getD k false = true) 2 :=
  calc_accept_indices_most_recent [false, true, false] 2 (by decide)

/-- C2: `Metropolis.calc_accept_status` is the sequential independence-chain
algorithm: with reference `r0`, position `i` is accepted iff
`lrand[i] < ref_i - logqp[i]`, where `ref_0 = r0` and `ref_{i+1}` equals
`logqp[i]` if position `i` was accepted and `ref_i` otherwise (this is
`runningRef`); when the reference argument is `None` it starts as `logqp[0]`. -/
theorem calc_accept_status_sequential (lrand logqp : List ℚ) (r0 : ℚ) (i : Nat)
    (hlen : lrand.length = logqp.length) (hi : i < logqp.length) :
    (∃ st, Metropolis.calc_accept_status lrand logqp (some r0) = some st ∧
       st.getD i false =
         decide (lrand.getD i 0 <
           Metropolis.runningRef r0 lrand logqp i - logqp.getD i 0)) ∧
    (logqp ≠ [] →
       Metropolis.calc_accept_status lrand logqp none =
         Metropolis.calc_accept_status lrand logqp (some (logqp.getD 0 0))) := by
  constructor
  · exact ⟨Metropolis.statusAux r0 lrand logqp, rfl,
      Metropolis.statusAux_getD lrand logqp r0 i hlen hi⟩
  · intro hne
    cases logqp with
    | nil => exact absurd rfl hne
    | cons q qs => rfl

/-- Witness for C2 at `lrand = [-1]`, `logqp = [2]`, `r0 = 5`, `i = 0`. -/
theorem calc_accept_status_sequential_witness :
    (∃ st, Metropolis.calc_accept_status [-(1:ℚ)] [(2:ℚ)] (some 5) = some st ∧
       st.getD 0 false =
         decide (([-(1:ℚ)]).getD 0 0 <
           Metropolis.runningRef 5 [-(1:ℚ)] [(2:ℚ)] 0 - ([(2:ℚ)]).getD 0 0)) ∧
    (([(2:ℚ)] : List ℚ) ≠ [] →
       Metropolis.calc_accept_status [-(1:ℚ)] [(2:ℚ)] none =
         Metropolis.calc_accept_status [-(1:ℚ)] [(2:ℚ)]
           (some (([(2:ℚ)] : List ℚ).getD 0 0))) :=
  calc_accept_status_sequential [-(1:ℚ)] [(2:ℚ)] 5 0 (by decide) (by decide)

/-- Evaluation of the fixed-randomness example shared by the two statements
about it below. -/
theorem statusExampleEval :
    Metropolis.calc_accept_status
        [-(1/10 : ℚ), -(1/10), -(1/10), -5] [(0 : ℚ), -1, 2, -(1/2)] none =
      some [true, true, false, true] := by
  simp only [Metropolis.calc_accept_status, Metropolis.statusAux]
  norm_num

/-- C5 counterexample: with log-uniform draws `[-0.1, -0.1, -0.1, -5]`,
`logqp = [0, -1, 2, -0.5]` and reference `None`, the code does NOT return the
status `[True, False, True, False]` claimed by the spec (tracing the loop: the
reference starts at `logqp[0] = 0`, position 1 is accepted because
`-0.1 < 0 - (-1) = 1`, position 2 is rejected because `-0.1 ≥ -1 - 2`, and
position 3 is accepted because `-5 < -1 - (-0.5)`). -/
theorem calc_accept_status_example_refuted :
    Metropolis.calc_accept_status
        [-(1/10 : ℚ), -(1/10), -(1/10), -5] [(0 : ℚ), -1, 2, -(1/2)] none ≠
      some [true, false, true, false] := by
  rw [statusExampleEval]
  decide

/-- C5 amended: on those fixed draws the code deterministically yields status
`[True, True, False, True]`, and `calc_accept_indices` applied to that status
yields `[0, 1, 1, 3]`. -/
theorem calc_accept_status_example :
    Metropolis.calc_accept_status
        [-(1/10 : ℚ), -(1/10), -(1/10), -5] [(0 : ℚ), -1, 2, -(1/2)] none =
      some [true, true, false, true] ∧
    Metropolis.calc_accept_indices [true, true, false, true] = [0, 1, 1, 3] :=
  ⟨statusExampleEval, by decide⟩

/-- C10: `Metropolis.calc_accept_count` never returns a value: when no entry of
`status` is accepted, `ind[0]` raises `IndexError`; otherwise the return
expression evaluates `len(states)` where the name `states` is unbound, raising
`NameError`. -/
theorem calc_accept_count_always_raises (status : List Bool) :
    Metropolis.calc_accept_count status =
      .error (if (List.range status.length).filter (fun i => status.getD i false) = []
              then PyErr.indexError else PyErr.nameError) := by
  unfold Metropolis.calc_accept_count
  cases h : (List.range status.length).filter (fun i => status.getD i false) with
  | nil => simp [h]
  | cons i0 rest => simp [h]

namespace Mask

/-- Row-major enumeration of the multi-indices of `shape`, in the order of
`itertools.product(range(l0), range(l1), ...)` — which is also the order in
which `torch` flattens a tensor of that shape. -/
def multiIndices : List Nat → List (List Nat)
  | [] => [[]]
  | l :: ls => (List.range l).flatMap fun i => (multiIndices ls).map fun t => i :: t

/-- `Mask.evenodd(shape, parity)` as a flat row-major list:
`mask[ind] = (sum(ind) + parity) % 2` for every multi-index `ind`. -/
def evenodd (shape : List Nat) (parity : Nat) : List Nat :=
  (multiIndices shape).map fun ind => (ind.sum + parity) % 2

/-- One trailing-axis row of `Mask.halfhalf(shape, parity)`: with
`n = (1 + L) // 2` (`L` the trailing-axis size), entries `[:n]` are `parity`
and entries `[n:]` are `1 - parity`. -/
def halfhalfRow (L parity : Nat) : List Nat :=
  List.replicate ((1 + L) / 2) parity ++
    List.replicate (L - (1 + L) / 2) (1 - parity)

/-- `Mask.halfhalf(shape, parity)` as a flat row-major list: one `halfhalfRow`
per leading multi-index. -/
def halfhalf (shape : List Nat) (parity : Nat) : List Nat :=
  (List.replicate shape.dropLast.prod (halfhalfRow (shape.getLastD 1) parity)).flatten

/-- `Mask._sameshape_split(x)`: `((1 - mask) * x, mask * x)` elementwise. -/
def sameshape_split (mask : List Nat) (x : List ℚ) : List ℚ × List ℚ :=
  (List.zipWith (fun m xi => ((1 - m : Nat) : ℚ) * xi) mask x,
   List.zipWith (fun m xi => (m : ℚ) * xi) mask x)

/-- `Mask._sameshape_cat(x_0, x_1)`: elementwise sum. -/
def sameshape_cat (x0 x1 : List ℚ) : List ℚ :=
  List.zipWith (· + ·) x0 x1

/-- `torch.masked_select(x, mask == v)` on flattened arrays: the entries of `x`
at positions where the mask equals `v`, kept in order. -/
def masked_select (mask : List Nat) (v : Nat) (x : List ℚ) : List ℚ :=
  ((mask.zip x).filter fun p => p.1 == v).map Prod.snd

/-- `Mask._anothershape_split(x)`: boolean selection by `mask == 0` and
`mask == 1`. -/
def anothershape_split (mask : List Nat) (x : List ℚ) : List ℚ × List ℚ :=
  (masked_select mask 0 x, masked_select mask 1 x)

/-- `Mask._anothershape_cat(x_0, x_1)`: allocate `torch.empty` storage and
scatter `x_0` into the positions with mask value 0 and `x_1` into those with
mask value 1, in order (a position whose mask value is neither 0 nor 1 would
stay uninitialised; that junk is modelled as 0; the `cat_mask` used by the
source is a second call of the constructor's `get_mask` and so is equal to
`mask`). -/
def anothershape_cat : List Nat → List ℚ → List ℚ → List ℚ
  | [], _, _ => []
  | m :: ms, x0, x1 =>
      if m = 0 then
        match x0 with
        | a :: t => a :: anothershape_cat ms t x1
        | [] => 0 :: anothershape_cat ms [] x1
      else if m = 1 then
        match x1 with
        | a :: t => a :: anothershape_cat ms x0 t
        | [] => 0 :: anothershape_cat ms x0 []
      else 0 :: anothershape_cat ms x0 x1

theorem length_multiIndices (shape : List Nat) :
    (multiIndices shape).length = shape.prod := by
  induction shape with
  | nil => simp [multiIndices]
  | cons l ls ih =>
      rw [multiIndices, List.length_flatMap]
      have h : List.map (List.length ∘ fun i => List.map (fun t => i :: t) (multiIndices ls))
          (List.range l) = List.map (fun _ => ls.prod) (List.range l) := by
        apply List.map_congr_left
        intro i hi
        simp [ih]
      rw [h, List.map_const', List.sum_replicate, smul_eq_mul, List.length_range,
        List.prod_cons]

theorem length_evenodd (shape : List Nat) (parity : Nat) :
    (evenodd shape parity).length = shape.prod := by
  simp [evenodd, length_multiIndices]

theorem length_halfhalfRow (L parity : Nat) :
    (halfhalfRow L parity).length = L := by
  simp [halfhalfRow]
  omega

theorem getLastD_mul_prod_dropLast (shape : List Nat) (hs : shape ≠ []) :
    shape.dropLast.prod * shape.getLastD 1 = shape.prod := by
  induction shape with
  | nil => exact absurd rfl hs
  | cons a l ih =>
      cases l with
      | nil => simp
      | cons b l2 =>
          have hne : (b :: l2) ≠ [] := by simp
          have : (a :: b :: l2).dropLast = a :: (b :: l2).dropLast := by simp
          rw [this, List.prod_cons, List.prod_cons, Nat.mul_assoc, ← ih hne]
          rfl

theorem length_halfhalf (shape : List Nat) (parity : Nat) (hs : shape ≠ []) :
    (halfhalf shape parity).length = shape.prod := by
  rw [halfhalf, List.length_flatten]
  rw [show (List.replicate shape.dropLast.prod
        (halfhalfRow (shape.getLastD 1) parity)).map List.length =
      List.replicate shape.dropLast.prod (shape.getLastD 1) by
        simp [List.map_replicate, length_halfhalfRow]]
  rw [List.sum_replicate, smul_eq_mul, getLastD_mul_prod_dropLast shape hs]

theorem evenodd_mem01 (shape : List Nat) (parity : Nat) :
    ∀ m ∈ evenodd shape parity, m = 0 ∨ m = 1 := by
  intro m hm
  simp only [evenodd, List.mem_map] at hm
  obtain ⟨ind, _, rfl⟩ := hm
  omega

theorem halfhalf_mem01 (shape : List Nat) (parity : Nat)
    (hp : parity = 0 ∨ parity = 1) :
    ∀ m ∈ halfhalf shape parity, m = 0 ∨ m = 1 := by
  intro m hm
  simp only [halfhalf, List.mem_flatten, List.mem_replicate] at hm
  obtain ⟨row, ⟨-, rfl⟩, hrow⟩ := hm
  simp only [halfhalfRow, List.mem_append, List.mem_replicate] at hrow
  omega

theorem sameshape_cat_split (mask : List Nat) (x : List ℚ)
    (h01 : ∀ m ∈ mask, m = 0 ∨ m = 1) (hlen : mask.length = x.length) :
    sameshape_cat (sameshape_split mask x).1 (sameshape_split mask x).2 = x := by
  induction mask generalizing x with
  | nil =>
      cases x with
      | nil => rfl
      | cons a t => simp at hlen
  | cons m ms ih =>
      cases x with
      | nil => simp at hlen
      | cons a t =>
          have h01' : ∀ m ∈ ms, m = 0 ∨ m = 1 := fun m hm => h01 m (by simp [hm])
          have hlen' : ms.length = t.length := by simpa using hlen
          have hm : m = 0 ∨ m = 1 := h01 m (by simp)
          have htail := ih t h01' hlen'
          rcases hm with rfl | rfl <;>
            simpa [sameshape_cat, sameshape_split] using htail

theorem anothershape_cat_split (mask : List Nat) (x : List ℚ)
    (h01 : ∀ m ∈ mask, m = 0 ∨ m = 1) (hlen : mask.length = x.length) :
    anothershape_cat mask (anothershape_split mask x).1
      (anothershape_split mask x).2 = x := by
  induction mask generalizing x with
  | nil =>
      cases x with
      | nil => rfl
      | cons a t => simp at hlen
  | cons m ms ih =>
      cases x with
      | nil => simp at hlen
      | cons a t =>
          have h01' : ∀ m ∈ ms, m = 0 ∨ m = 1 := fun m hm => h01 m (by simp [hm])
          have hlen' : ms.length = t.length := by simpa using hlen
          have hm : m = 0 ∨ m = 1 := h01 m (by simp)
          have htail := ih t h01' hlen'
          rcases hm with rfl | rfl <;>
            simpa [anothershape_cat, anothershape_split, masked_select] using htail

end Mask

/-- C4: for every mask built by `Mask(shape, parity, keepshape, split_form)`
with `split_form` either `even-odd` or `half-half`, in both the same-shape
(`keepshape=True`) and reshaped (`keepshape=False`) modes, and every input `x`
whose (flattened) size matches the mask, `cat(*split(x)) == x` exactly. -/
theorem mask_cat_split_id (shape : List Nat) (parity : Nat) (x : List ℚ)
    (hp : parity = 0 ∨ parity = 1) (hs : shape ≠ [])
    (hx : x.length = shape.prod) :
    ∀ mask ∈ [Mask.evenodd shape parity, Mask.halfhalf shape parity],
      Mask.sameshape_cat (Mask.sameshape_split mask x).1
        (Mask.sameshape_split mask x).2 = x ∧
      Mask.anothershape_cat mask (Mask.anothershape_split mask x).1
        (Mask.anothershape_split mask x).2 = x := by
  intro mask hmask
  have h01 : ∀ m ∈ mask, m = 0 ∨ m = 1 := by
    rcases List.mem_pair.mp hmask with rfl | rfl
    · exact Mask.evenodd_mem01 shape parity
    · exact Mask.halfhalf_mem01 shape parity hp
  have hlen : mask.length = x.length := by
    rcases List.mem_pair.mp hmask with rfl | rfl
    · rw [Mask.length_evenodd, hx]
    · rw [Mask.length_halfhalf shape parity hs, hx]
  exact ⟨Mask.sameshape_cat_split mask x h01 hlen,
         Mask.anothershape_cat_split mask x h01 hlen⟩

/-- Witness for C4 at `shape = [2, 2]`, `parity = 0`, `x = [1, 2, 3, 4]`, with
the even-odd mask. -/
theorem mask_cat_split_id_witness :
    Mask.sameshape_cat
        (Mask.sameshape_split (Mask.evenodd [2, 2] 0) [(1 : ℚ), 2, 3, 4]).1
        (Mask.sameshape_split (Mask.evenodd [2, 2] 0) [(1 : ℚ), 2, 3, 4]).2 =
      [(1 : ℚ), 2, 3, 4] ∧
    Mask.anothershape_cat (Mask.evenodd [2, 2] 0)
        (Mask.anothershape_split (Mask.evenodd [2, 2] 0) [(1 : ℚ), 2, 3, 4]).1
        (Mask.anothershape_split (Mask.evenodd [2, 2] 0) [(1 : ℚ), 2, 3, 4]).2 =
      [(1 : ℚ), 2, 3, 4] :=
  mask_cat_split_id [2, 2] 0 [(1 : ℚ), 2, 3, 4] (Or.inl rfl) (by decide)
    (by decide) (Mask.evenodd [2, 2] 0) (List.mem_cons_self _ _)

namespace Sampler

/-- The persisted reference dictionary `_ref` of `MCMCSampler`; the constructor
initialises every field to `None`.  The configuration type is a parameter. -/
structure RefState (α : Type) where
  sample : Option α
  logq : Option ℚ
  logp : Option ℚ
  logqp : Option ℚ
deriving DecidableEq

/-- `x.index_select(0, ind)` on the leading axis: pick `src[i]` for each listed
index, failing (as torch does) when an index is out of bounds. -/
def gather {α : Type} (src : List α) : List Nat → Option (List α)
  | [] => some []
  | i :: is => do
      let a ← src[i]?
      let rest ← gather src is
      pure (a :: rest)

/-- `MCMCSampler._accept_reject_step(y, logq, logp)`: compute the acceptance
statuses of the batch against the persisted `_ref['logqp']`, substitute the
persisted reference sample/logq/logp for the first element if it was rejected,
replace every element by the most recent accepted one via
`calc_accept_indices` and `index_select`, and store the batch's last emitted
element back into `_ref` (with `_ref['logqp'] = _ref['logq'] - _ref['logp']`).
`seize` (the library's detach-to-numpy conversion) is value-preserving and is
modelled as the identity; `lrand` is the sequence of log-uniform draws consumed
by `calc_accept_status`.  Reading a `None` field of `_ref` (a `None` tensor
assignment or a `None` arithmetic operand in the source) is a failure, modelled
by `none`. -/
def accept_reject_step {α : Type} (lrand : List ℚ) (r : RefState α)
    (y : List α) (logq logp : List ℚ) :
    Option (List α × List ℚ × List ℚ × RefState α) := do
  let status ← Metropolis.calc_accept_status lrand
    (List.zipWith (· - ·) logq logp) r.logqp
  let s0 ← status.head?
  let sub ←
    if s0 then pure (y, logq, logp)
    else do
      let ys ← r.sample
      let lq ← r.logq
      let lp ← r.logp
      pure (y.set 0 ys, logq.set 0 lq, logp.set 0 lp)
  let ind := Metropolis.calc_accept_indices status
  let y2 ← gather sub.1 ind
  let logq2 ← gather sub.2.1 ind
  let logp2 ← gather sub.2.2 ind
  let ylast ← y2.getLast?
  let lqlast ← logq2.getLast?
  let lplast ← logp2.getLast?
  pure (y2, logq2, logp2,
    { sample := some ylast, logq := some lqlast, logp := some lplast,
      logqp := some (lqlast - lplast) })

/-- Specification of one `_accept_reject_step` call, used by the chain
continuity claim: the statuses are those of `calc_accept_status` evaluated
against the persisted `_ref['logqp']`; the call succeeds; if the first proposal
was rejected the first emitted sample/logq/logp are the persisted reference
values; and the updated `_ref` holds exactly the batch's last emitted element,
with `_ref['logqp']` equal to that element's `logq - logp`. -/
def AcceptRejectStepSpec {α : Type} (lrand : List ℚ) (r : RefState α)
    (y : List α) (logq logp : List ℚ) : Prop :=
  ∃ st y2 lq2 lp2 ylast lqlast lplast,
    Metropolis.calc_accept_status lrand (List.zipWith (· - ·) logq logp) r.logqp
      = some st ∧
    accept_reject_step lrand r y logq logp =
      some (y2, lq2, lp2,
        { sample := some ylast, logq := some lqlast, logp := some lplast,
          logqp := some (lqlast - lplast) }) ∧
    (st.getD 0 true = false →
       y2.head? = r.sample ∧ lq2.head? = r.logq ∧ lp2.head? = r.logp) ∧
    y2.getLast? = some ylast ∧ lq2.getLast? = some lqlast ∧
    lp2.getLast? = some lplast

theorem indicesAux_length (s : List Bool) (ind cntr : Nat) :
    (Metropolis.indicesAux s ind cntr).length = s.length := by
  induction s generalizing ind cntr with
  | nil => rfl
  | cons a rest ih => simp [Metropolis.indicesAux, ih]

theorem indicesAux_mem (s : List Bool) (ind cntr : Nat) :
    ∀ e ∈ Metropolis.indicesAux s ind cntr, e < ind + s.length ∨ e = cntr := by
  induction s generalizing ind cntr with
  | nil => simp [Metropolis.indicesAux]
  | cons a rest ih =>
      intro e he
      simp only [Metropolis.indicesAux, List.mem_cons] at he
      rcases he with rfl | he
      · cases a <;> simp <;> omega
      · rcases ih (ind + 1) (if a then ind else cntr) e he with h | h
        · left; simpa [Nat.add_assoc, Nat.add_comm 1 rest.length] using h
        · cases a <;> simp_all <;> omega

theorem calc_accept_indices_mem (s : List Bool) (h : s ≠ []) :
    ∀ e ∈ Metropolis.calc_accept_indices s, e < s.length := by
  intro e he
  rcases indicesAux_mem s 0 0 e he with hlt | rfl
  · simpa using hlt
  · exact List.length_pos.mpr h

theorem indicesAux_head (a : Bool) (s : List Bool) (ind cntr : Nat) :
    (Metropolis.indicesAux (a :: s) ind cntr).head? =
      some (if a then ind else cntr) := by
  simp [Metropolis.indicesAux]

theorem gather_some {α : Type} (src : List α) (is : List Nat)
    (h : ∀ i ∈ is, i < src.length) :
    ∃ out, gather src is = some out ∧ out.length = is.length := by
  induction is with
  | nil => exact ⟨[], rfl, rfl⟩
  | cons i is ih =>
      obtain ⟨out, hout, hlen⟩ := ih (fun j hj => h j (by simp [hj]))
      have hi : i < src.length := h i (by simp)
      obtain ⟨a, ha⟩ : ∃ a, src[i]? = some a :=
        ⟨src[i], List.getElem?_eq_getElem hi⟩
      exact ⟨a :: out, by simp [gather, ha, hout], by simp [hlen]⟩

theorem gather_head {α : Type} (src out : List α) (i : Nat) (is : List Nat)
    (h : gather src (i :: is) = some out) : out.head? = src[i]? := by
  simp only [gather, Option.bind_eq_bind] at h
  cases hsome : src[i]? with
  | none => rw [hsome] at h; simp at h
  | some a =>
      rw [hsome] at h
      cases hrest : gather src is with
      | none => rw [hrest] at h; simp at h
      | some rest =>
          rw [hrest] at h
          simp only [Option.some_bind, Option.pure_def, Option.some.injEq] at h
          subst h
          rfl

end Sampler

/-- C3: chain continuity of `MCMCSampler._accept_reject_step`: when the
persisted `_ref` is populated (as it is after any completed call) and the batch
shapes agree, the step succeeds; the batch's acceptance statuses are those of
`calc_accept_status` evaluated against the persisted `_ref['logqp']`; if the
first proposal is rejected the first emitted sample/logq/logp are exactly the
persisted reference values; and afterwards `_ref` holds the batch's last
emitted element with `_ref['logqp']` equal to that element's `logq - logp`. -/
theorem accept_reject_step_chain {α : Type} (lrand : List ℚ)
    (r : Sampler.RefState α) (y : List α) (logq logp : List ℚ)
    (hs : r.sample.isSome) (hlq : r.logq.isSome) (hlp : r.logp.isSome)
    (hqp : r.logqp.isSome)
    (h1 : lrand.length = y.length) (h2 : logq.length = y.length)
    (h3 : logp.length = y.length) (h0 : 0 < y.length) :
    Sampler.AcceptRejectStepSpec lrand r y logq logp := by
  obtain ⟨rr, hrr⟩ := Option.isSome_iff_exists.mp hqp
  obtain ⟨rs, hrs⟩ := Option.isSome_iff_exists.mp hs
  obtain ⟨rq, hrq⟩ := Option.isSome_iff_exists.mp hlq
  obtain ⟨rp, hrp⟩ := Option.isSome_iff_exists.mp hlp
  have hlqp : (List.zipWith (· - ·) logq logp).length = y.length := by
    rw [List.length_zipWith, h2, h3, min_self]
  have hcs : Metropolis.calc_accept_status lrand
      (List.zipWith (· - ·) logq logp) r.logqp
      = some (Metropolis.statusAux rr lrand (List.zipWith (· - ·) logq logp)) := by
    rw [hrr]
    rfl
  have hstlen : (Metropolis.statusAux rr lrand
      (List.zipWith (· - ·) logq logp)).length = y.length := by
    rw [Metropolis.statusAux_length, h1, hlqp, min_self]
  have hstne : Metropolis.statusAux rr lrand
      (List.zipWith (· - ·) logq logp) ≠ [] := by
    intro hnil
    rw [hnil] at hstlen
    simp only [List.length_nil] at hstlen
    omega
  obtain ⟨s0, srest, hst⟩ := List.exists_cons_of_ne_nil hstne
  have hindlen : (Metropolis.calc_accept_indices
      (Metropolis.statusAux rr lrand (List.zipWith (· - ·) logq logp))).length
      = y.length := by
    rw [Metropolis.calc_accept_indices, Sampler.indicesAux_length, hstlen]
  have hindmem : ∀ e ∈ Metropolis.calc_accept_indices
      (Metropolis.statusAux rr lrand (List.zipWith (· - ·) logq logp)),
      e < y.length := by
    intro e he
    have := Sampler.calc_accept_indices_mem _ hstne e he
    omega
  have hindhead : ∃ tail, Metropolis.calc_accept_indices
      (Metropolis.statusAux rr lrand (List.zipWith (· - ·) logq logp))
      = 0 :: tail := by
    rw [hst]
    refine ⟨Metropolis.indicesAux srest 1 (if s0 then 0 else 0), ?_⟩
    simp [Metropolis.calc_accept_indices, Metropolis.indicesAux]
  cases hs0 : s0 with
  | true =>
      subst hs0
      obtain ⟨y2, hy2, hy2len⟩ := Sampler.gather_some y _ hindmem
      obtain ⟨lq2, hlq2, hlq2len⟩ := Sampler.gather_some logq _
        (fun e he => lt_of_lt_of_le (hindmem e he) (le_of_eq h2.symm))
      obtain ⟨lp2, hlp2, hlp2len⟩ := Sampler.gather_some logp _
        (fun e he => lt_of_lt_of_le (hindmem e he) (le_of_eq h3.symm))
      have hy2ne : y2 ≠ [] := by
        intro hnil
        rw [hnil] at hy2len
        simp only [List.length_nil] at hy2len
        omega
      have hlq2ne : lq2 ≠ [] := by
        intro hnil
        rw [hnil] at hlq2len
        simp only [List.length_nil] at hlq2len
        omega
      have hlp2ne : lp2 ≠ [] := by
        intro hnil
        rw [hnil] at hlp2len
        simp only [List.length_nil] at hlp2len
        omega
      obtain ⟨ylast, hylast⟩ :=
        Option.isSome_iff_exists.mp (List.getLast?_isSome.mpr hy2ne)
      obtain ⟨lqlast, hlqlast⟩ :=
        Option.isSome_iff_exists.mp (List.getLast?_isSome.mpr hlq2ne)
      obtain ⟨lplast, hlplast⟩ :=
        Option.isSome_iff_exists.mp (List.getLast?_isSome.mpr hlp2ne)
      refine ⟨_, y2, lq2, lp2, ylast, lqlast, lplast, hcs, ?_, ?_, hylast, hlqlast, hlplast⟩
      · unfold Sampler.accept_reject_step
        rw [hcs, hst]
        rw [hst] at hy2 hlq2 hlp2
        simp only [Option.bind_eq_bind, Option.some_bind, List.head?_cons,
          eq_self_iff_true, if_true, Option.pure_def]
        rw [hy2]
        simp only [Option.some_bind]
        rw [hlq2]
        simp only [Option.some_bind]
        rw [hlp2]
        simp only [Option.some_bind]
        rw [hylast]
        simp only [Option.some_bind]
        rw [hlqlast]
        simp only [Option.some_bind]
        rw [hlplast]
        simp only [Option.some_bind, Option.pure_def]
      · intro hfalse
        rw [hst] at hfalse
        simp only [List.getD_cons_zero] at hfalse
        exact Bool.noConfusion hfalse
  | false =>
      subst hs0
      have hmem1 : ∀ e ∈ Metropolis.calc_accept_indices
          (Metropolis.statusAux rr lrand (List.zipWith (· - ·) logq logp)),
          e < (y.set 0 rs).length := by
        intro e he
        rw [List.length_set]
        exact hindmem e he
      have hmem2 : ∀ e ∈ Metropolis.calc_accept_indices
          (Metropolis.statusAux rr lrand (List.zipWith (· - ·) logq logp)),
          e < (logq.set 0 rq).length := by
        intro e he
        rw [List.length_set, h2]
        exact hindmem e he
      have hmem3 : ∀ e ∈ Metropolis.calc_accept_indices
          (Metropolis.statusAux rr lrand (List.zipWith (· - ·) logq logp)),
          e < (logp.set 0 rp).length := by
        intro e he
        rw [List.length_set, h3]
        exact hindmem e he
      obtain ⟨y2, hy2, hy2len⟩ := Sampler.gather_some (y.set 0 rs) _ hmem1
      obtain ⟨lq2, hlq2, hlq2len⟩ := Sampler.gather_some (logq.set 0 rq) _ hmem2
      obtain ⟨lp2, hlp2, hlp2len⟩ := Sampler.gather_some (logp.set 0 rp) _ hmem3
      have hy2ne : y2 ≠ [] := by
        intro hnil
        rw [hnil] at hy2len
        simp only [List.length_nil] at hy2len
        omega
      have hlq2ne : lq2 ≠ [] := by
        intro hnil
        rw [hnil] at hlq2len
        simp only [List.length_nil] at hlq2len
        omega
      have hlp2ne : lp2 ≠ [] := by
        intro hnil
        rw [hnil] at hlp2len
        simp only [List.length_nil] at hlp2len
        omega
      obtain ⟨ylast, hylast⟩ :=
        Option.isSome_iff_exists.mp (List.getLast?_isSome.mpr hy2ne)
      obtain ⟨lqlast, hlqlast⟩ :=
        Option.isSome_iff_exists.mp (List.getLast?_isSome.mpr hlq2ne)
      obtain ⟨lplast, hlplast⟩ :=
        Option.isSome_iff_exists.mp (List.getLast?_isSome.mpr hlp2ne)
      obtain ⟨itail, hitail⟩ := hindhead
      refine ⟨_, y2, lq2, lp2, ylast, lqlast, lplast, hcs, ?_, ?_, hylast, hlqlast, hlplast⟩
      · unfold Sampler.accept_reject_step
        rw [hcs, hst]
        rw [hst] at hy2 hlq2 hlp2
        simp only [Option.bind_eq_bind, Option.some_bind, List.head?_cons,
          Bool.false_eq_true, if_false, Option.pure_def]
        rw [hrs]
        simp only [Option.some_bind]
        rw [hrq]
        simp only [Option.some_bind]
        rw [hrp]
        simp only [Option.some_bind, Option.pure_def]
        rw [hy2]
        simp only [Option.some_bind]
        rw [hlq2]
        simp only [Option.some_bind]
        rw [hlp2]
        simp only [Option.some_bind]
        rw [hylast]
        simp only [Option.some_bind]
        rw [hlqlast]
        simp only [Option.some_bind]
        rw [hlplast]
        simp only [Option.some_bind, Option.pure_def]
      · intro hfalse
        have hyhead : y2.head? = (y.set 0 rs)[0]? := by
          apply Sampler.gather_head (y.set 0 rs) y2 0 itail
          rw [← hitail]
          exact hy2
        have hlqhead : lq2.head? = (logq.set 0 rq)[0]? := by
          apply Sampler.gather_head (logq.set 0 rq) lq2 0 itail
          rw [← hitail]
          exact hlq2
        have hlphead : lp2.head? = (logp.set 0 rp)[0]? := by
          apply Sampler.gather_head (logp.set 0 rp) lp2 0 itail
          rw [← hitail]
          exact hlp2
        refine ⟨?_, ?_, ?_⟩
        · rw [hyhead, List.getElem?_set_self h0, hrs]
        · rw [hlqhead, List.getElem?_set_self (by omega), hrq]
        · rw [hlphead, List.getElem?_set_self (by omega), hrp]

/-- Witness for C3: a populated reference, a batch of two proposals, all length
hypotheses concrete. -/
theorem accept_reject_step_chain_witness :
    Sampler.AcceptRejectStepSpec [-(1 : ℚ), -1]
      { sample := some (5 : ℚ), logq := some 1, logp := some 2, logqp := some (-1) }
      [(7 : ℚ), 8] [(0 : ℚ), 0] [(0 : ℚ), 0] :=
  accept_reject_step_chain [-(1 : ℚ), -1]
    { sample := some (5 : ℚ), logq := some 1, logp := some 2, logqp := some (-1) }
    [(7 : ℚ), 8] [(0 : ℚ), 0] [(0 : ℚ), 0]
    rfl rfl rfl rfl rfl rfl rfl (by decide)

namespace Blocked

/-- The external collaborators used by `BlockedMCMCSampler.sweep`, exactly at
the interface the source requires: the prior's in-place `blockupdater` and its
`restore` primitive (modelled functionally on a state type `S`), the engine's
forward pass `net` returning `(y, logJ)`, the prior's `log_prob`, and the
target `action`. -/
structure Env (S : Type) where
  blockupdater : S → Nat → S
  restore : S → Nat → S
  net : S → S × ℚ
  log_prob : S → ℚ
  action : S → ℚ

/-- The acceptance log-ratio `logq - logp` the sweep computes for a
configuration `x`: `logq = prior.log_prob(x) - logJ` and `logp = -action(y)`
with `(y, logJ) = net(x)`. -/
def logqpOf {S : Type} (env : Env S) (x : S) : ℚ :=
  (env.log_prob x - (env.net x).2) - (-(env.action (env.net x).1))

/-- The loop of `BlockedMCMCSampler.sweep`: `ind` is the index of the next
block, the second `Nat` argument the number of remaining blocks, `lrand` the
log-uniform draws (`np.log(np.random.rand(n_blocks))`, indexed by block).  For
each block: mutate the block in place, recompute the log-ratio of the whole
configuration, accept unconditionally when `ind == 0 and logqp_ref is None`,
otherwise accept iff `lrand[ind] < logqp_ref - (logq - logp)`; on acceptance
the carried reference becomes the new ratio, on rejection the block mutation is
undone with `restore` and the reference is kept.  Comparing against a `None`
reference at `ind > 0` would raise a `TypeError` in Python; that (unreachable
from `sweep`'s entry) failure is modelled by `none`. -/
def sweepAux {S : Type} (env : Env S) (lrand : List ℚ) :
    Nat → Nat → S → Option ℚ → Option (S × List Bool × Option ℚ)
  | _, 0, x, ref => some (x, [], ref)
  | ind, rem + 1, x, ref =>
      let xNew := env.blockupdater x ind
      let ratio := logqpOf env xNew
      let acceptO : Option Bool :=
        if ind = 0 ∧ ref = none then some true
        else
          match ref with
          | none => none
          | some r => some (decide (lrand.getD ind 0 < r - ratio))
      match acceptO with
      | none => none
      | some true =>
          (sweepAux env lrand (ind + 1) rem xNew (some ratio)).map
            (fun out => (out.1, true :: out.2.1, out.2.2))
      | some false =>
          (sweepAux env lrand (ind + 1) rem (env.restore xNew ind) ref).map
            (fun out => (out.1, false :: out.2.1, out.2.2))

/-- `BlockedMCMCSampler.sweep(x, n_blocks, logqp_ref)`. -/
def sweep {S : Type} (env : Env S) (lrand : List ℚ) (x : S) (n_blocks : Nat)
    (logqp_ref : Option ℚ) : Option (S × List Bool × Option ℚ) :=
  sweepAux env lrand 0 n_blocks x logqp_ref

/-- Declarative per-block recurrence, written from the claim: `blockTrace`
returns the pre-image state and carried reference just before block
`ind0 + i`, starting from state `x0` and reference `r0` at block `ind0`.  The
block is accepted iff `lrand[ind] < ref - ratio(updated state)`; on acceptance
the state advances to the updated state and the reference to its ratio; on
rejection the prior's restore primitive is applied to exactly that block and
the reference is unchanged. -/
def blockTrace {S : Type} (env : Env S) (lrand : List ℚ) (ind0 : Nat) (x0 : S)
    (r0 : ℚ) : Nat → S × ℚ
  | 0 => (x0, r0)
  | i + 1 =>
      let p := blockTrace env lrand ind0 x0 r0 i
      let xNew := env.blockupdater p.1 (ind0 + i)
      if lrand.getD (ind0 + i) 0 < p.2 - logqpOf env xNew
      then (xNew, logqpOf env xNew)
      else (env.restore xNew (ind0 + i), p.2)

/-- The acceptance decision of block `ind0 + i` along `blockTrace`. -/
def blockAccept {S : Type} (env : Env S) (lrand : List ℚ) (ind0 : Nat) (x0 : S)
    (r0 : ℚ) (i : Nat) : Bool :=
  decide (lrand.getD (ind0 + i) 0 <
    (blockTrace env lrand ind0 x0 r0 i).2 -
      logqpOf env (env.blockupdater (blockTrace env lrand ind0 x0 r0 i).1 (ind0 + i)))

theorem blockTrace_shift {S : Type} (env : Env S) (lrand : List ℚ) (ind0 : Nat)
    (x0 : S) (r0 : ℚ) (i : Nat) :
    blockTrace env lrand ind0 x0 r0 (i + 1) =
      blockTrace env lrand (ind0 + 1)
        (if lrand.getD ind0 0 < r0 - logqpOf env (env.blockupdater x0 ind0)
         then env.blockupdater x0 ind0
         else env.restore (env.blockupdater x0 ind0) ind0)
        (if lrand.getD ind0 0 < r0 - logqpOf env (env.blockupdater x0 ind0)
         then logqpOf env (env.blockupdater x0 ind0)
         else r0) i := by
  induction i with
  | zero =>
      show (let p := blockTrace env lrand ind0 x0 r0 0
            let xNew := env.blockupdater p.1 (ind0 + 0)
            if lrand.getD (ind0 + 0) 0 < p.2 - logqpOf env xNew
            then (xNew, logqpOf env xNew)
            else (env.restore xNew (ind0 + 0), p.2)) = _
      simp only [blockTrace, Nat.add_zero]
      split <;> rfl
  | succ i ih =>
      show (let p := blockTrace env lrand ind0 x0 r0 (i + 1)
            let xNew := env.blockupdater p.1 (ind0 + (i + 1))
            if lrand.getD (ind0 + (i + 1)) 0 < p.2 - logqpOf env xNew
            then (xNew, logqpOf env xNew)
            else (env.restore xNew (ind0 + (i + 1)), p.2)) = _
      simp only [ih]
      show _ = (let p := blockTrace env lrand (ind0 + 1) _ _ i
                let xNew := env.blockupdater p.1 (ind0 + 1 + i)
                if lrand.getD (ind0 + 1 + i) 0 < p.2 - logqpOf env xNew
                then (xNew, logqpOf env xNew)
                else (env.restore xNew (ind0 + 1 + i), p.2))
      simp only [show ind0 + (i + 1) = ind0 + 1 + i by omega]

theorem blockAccept_shift {S : Type} (env : Env S) (lrand : List ℚ) (ind0 : Nat)
    (x0 : S) (r0 : ℚ) (i : Nat) :
    blockAccept env lrand ind0 x0 r0 (i + 1) =
      blockAccept env lrand (ind0 + 1)
        (if lrand.getD ind0 0 < r0 - logqpOf env (env.blockupdater x0 ind0)
         then env.blockupdater x0 ind0
         else env.restore (env.blockupdater x0 ind0) ind0)
        (if lrand.getD ind0 0 < r0 - logqpOf env (env.blockupdater x0 ind0)
         then logqpOf env (env.blockupdater x0 ind0)
         else r0) i := by
  unfold blockAccept
  rw [blockTrace_shift]
  simp only [show ind0 + (i + 1) = ind0 + 1 + i by omega]

theorem sweepAux_trace {S : Type} (env : Env S) (lrand : List ℚ) :
    ∀ (rem ind : Nat) (x : S) (r : ℚ),
      sweepAux env lrand ind rem x (some r) =
        some ((blockTrace env lrand ind x r rem).1,
          (List.range rem).map (blockAccept env lrand ind x r),
          some (blockTrace env lrand ind x r rem).2) := by
  intro rem
  induction rem with
  | zero => intro ind x r; rfl
  | succ rem ih =>
      intro ind x r
      rw [sweepAux]
      have hcond : ¬ (ind = 0 ∧ (some r : Option ℚ) = none) := by simp
      rw [if_neg hcond]
      have hrange : (List.range (rem + 1)).map (blockAccept env lrand ind x r) =
          blockAccept env lrand ind x r 0 ::
            (List.range rem).map (fun i => blockAccept env lrand ind x r (i + 1)) := by
        rw [List.range_succ_eq_map]
        simp [Function.comp]
      by_cases hacc : lrand.getD ind 0 < r - logqpOf env (env.blockupdater x ind)
      · have hacc0 : blockAccept env lrand ind x r 0 = true := by
          simp only [blockAccept, blockTrace, Nat.add_zero]
          simpa using hacc
        have haccsh : (List.range rem).map (fun i => blockAccept env lrand ind x r (i + 1)) =
            (List.range rem).map (blockAccept env lrand (ind + 1)
              (env.blockupdater x ind) (logqpOf env (env.blockupdater x ind))) := by
          apply List.map_congr_left
          intro i hi
          rw [blockAccept_shift, if_pos hacc, if_pos hacc]
        rw [show (decide (lrand.getD ind 0 <
            r - logqpOf env (env.blockupdater x ind))) = true by simpa using hacc]
        rw [ih (ind + 1) (env.blockupdater x ind)
          (logqpOf env (env.blockupdater x ind))]
        rw [blockTrace_shift env lrand ind x r rem]
        simp only [if_pos hacc, Option.map_some, hrange, hacc0, haccsh]
        rfl
      · have hacc0 : blockAccept env lrand ind x r 0 = false := by
          simp only [blockAccept, blockTrace, Nat.add_zero]
          simpa using hacc
        have haccsh : (List.range rem).map (fun i => blockAccept env lrand ind x r (i + 1)) =
            (List.range rem).map (blockAccept env lrand (ind + 1)
              (env.restore (env.blockupdater x ind) ind) r) := by
          apply List.map_congr_left
          intro i hi
          rw [blockAccept_shift, if_neg hacc, if_neg hacc]
        rw [show (decide (lrand.getD ind 0 <
            r - logqpOf env (env.blockupdater x ind))) = false by simpa using hacc]
        rw [ih (ind + 1) (env.restore (env.blockupdater x ind) ind) r]
        rw [blockTrace_shift env lrand ind x r rem]
        simp only [if_neg hacc, Option.map_some, hrange, hacc0, haccsh]
        rfl

end Blocked

/-- Specification of a sweep: starting from a carried reference `r0`, the sweep
returns exactly the state/acceptance/reference trace of the declarative
per-block Metropolis recurrence (`blockTrace`/`blockAccept`); starting from no
reference (the first-ever sweep), the first block is accepted unconditionally,
the carried reference is established as the log-ratio of the block-0-updated
state, and the remaining `n - 1` blocks follow the same recurrence from
there. -/
def SweepSpec {S : Type} (env : Blocked.Env S) (lrand : List ℚ) (x : S)
    (n : Nat) (r0 : ℚ) : Prop :=
  Blocked.sweep env lrand x n (some r0) =
    some ((Blocked.blockTrace env lrand 0 x r0 n).1,
      (List.range n).map (Blocked.blockAccept env lrand 0 x r0),
      some (Blocked.blockTrace env lrand 0 x r0 n).2) ∧
  Blocked.sweep env lrand x n none =
    some ((Blocked.blockTrace env lrand 1 (env.blockupdater x 0)
            (Blocked.logqpOf env (env.blockupdater x 0)) (n - 1)).1,
      true :: (List.range (n - 1)).map (Blocked.blockAccept env lrand 1
        (env.blockupdater x 0) (Blocked.logqpOf env (env.blockupdater x 0))),
      some (Blocked.blockTrace env lrand 1 (env.blockupdater x 0)
            (Blocked.logqpOf env (env.blockupdater x 0)) (n - 1)).2)

/-- C6: each block update in `BlockedMCMCSampler.sweep` is judged against the
single carried reference by one Metropolis draw; with no reference (first-ever
sweep) the first block is accepted unconditionally, establishing the reference;
on acceptance the carried reference becomes the new ratio; on rejection the
prior's restore primitive is invoked for exactly that block and the reference
is unchanged — all as recorded by the declarative recurrence
`blockTrace`/`blockAccept`. -/
theorem blocked_sweep_metropolis {S : Type} (env : Blocked.Env S)
    (lrand : List ℚ) (x : S) (n : Nat) (r0 : ℚ) (hn : 0 < n) :
    SweepSpec env lrand x n r0 := by
  constructor
  · exact Blocked.sweepAux_trace env lrand n 0 x r0
  · obtain ⟨m, rfl⟩ : ∃ m, n = m + 1 := ⟨n - 1, by omega⟩
    have hstep : Blocked.sweepAux env lrand 0 (m + 1) x none =
        (Blocked.sweepAux env lrand 1 m (env.blockupdater x 0)
          (some (Blocked.logqpOf env (env.blockupdater x 0)))).map
          (fun out => (out.1, true :: out.2.1, out.2.2)) := rfl
    show Blocked.sweepAux env lrand 0 (m + 1) x none = _
    rw [hstep, Blocked.sweepAux_trace]
    simp only [Nat.add_sub_cancel, Option.map_some]
    rfl

/-- Witness for C6 with a one-dimensional rational state, one block, concrete
update/restore/net/log-density functions. -/
theorem blocked_sweep_metropolis_witness :
    SweepSpec
      { blockupdater := fun x _ => x + 1, restore := fun x _ => x - 1,
        net := fun x => (x, 0), log_prob := fun x => x,
        action := fun y => -y }
      [(0 : ℚ)] (0 : ℚ) 1 3 :=
  blocked_sweep_metropolis
    { blockupdater := fun x _ => x + 1, restore := fun x _ => x - 1,
      net := fun x => (x, 0), log_prob := fun x => x,
      action := fun y => -y }
    [(0 : ℚ)] (0 : ℚ) 1 3 (by decide)

namespace Coupling

/-- The numeric value of one mask entry: the masks the couplings multiply by
are 0/1 `uint8` tensors, so an entry is modelled as a `Bool` with `true`
standing for mask value 1. -/
def ind01 (b : Bool) : ℚ := if b then 1 else 0

/-- The per-entry channel weights: channel 0 multiplies by `1 - mask`, any
other channel by `mask` (as in `Mask._sameshape_purify`). -/
def chan (m : List Bool) (channel : Nat) : List ℚ :=
  if channel = 0 then m.map (fun b => 1 - ind01 b) else m.map (fun b => ind01 b)

/-- Elementwise product with a weight list. -/
def wmul (c x : List ℚ) : List ℚ := List.zipWith (· * ·) c x

/-- `Mask._sameshape_split` as used by the couplings. -/
def split (m : List Bool) (x : List ℚ) : List ℚ × List ℚ :=
  (wmul (chan m 0) x, wmul (chan m 1) x)

/-- `Mask._sameshape_cat`: elementwise sum. -/
def cat (x0 x1 : List ℚ) : List ℚ := List.zipWith (· + ·) x0 x1

/-- `Mask._sameshape_purify(x_chnl, channel)` with `zero2one=False`. -/
def purify (m : List Bool) (x : List ℚ) (channel : Nat) : List ℚ :=
  wmul (chan m channel) x

/-- Modelled from the spec: `Module_.sum_density` lives in the `Module_` core
outside these source files; per the spec the log-Jacobian changes by "sum(s)
over active elements", so on a flat configuration it is the entry sum. -/
def sum_density (s : List ℚ) : ℚ := s.sum

/-- `ShiftList_.atomic_forward`: `purify(x_active + t, channel=parity)` with
`t = net(frozen)`; `preprocess_fz`/`postprocess` only insert/remove the channel
axis and are identities on the flat configuration.  The Jacobian contribution
is zero. -/
def shift_atomic_forward (m : List Bool) (net : List ℚ → List ℚ) (parity : Nat)
    (xa xf : List ℚ) (log0 : ℚ) : List ℚ × ℚ :=
  (purify m (List.zipWith (· + ·) xa (net xf)) parity, log0)

/-- `ShiftList_.atomic_backward`. -/
def shift_atomic_backward (m : List Bool) (net : List ℚ → List ℚ) (parity : Nat)
    (xa xf : List ℚ) (log0 : ℚ) : List ℚ × ℚ :=
  (purify m (List.zipWith (· - ·) xa (net xf)) parity, log0)

/-- `AffineList_.atomic_forward`: the net output is split into `(t, s)` along
the channel axis (modelled as a pair of flat lists), both purified; with
`zee2sym` the scale becomes `|s|`; then `active' = t + active * exp(-s)` and
the log-Jacobian decreases by `sum(s)`.  `torch.exp` is modelled by a
parameter `rexp`; the real exponential satisfies the hypothesis
`rexp (-a) * rexp a = 1` used by the inversion theorem. -/
def affine_atomic_forward (rexp : ℚ → ℚ) (zee2sym : Bool) (m : List Bool)
    (net : List ℚ → List ℚ × List ℚ) (parity : Nat) (xa xf : List ℚ)
    (log0 : ℚ) : List ℚ × ℚ :=
  let t := purify m (net xf).1 parity
  let s1 := purify m (net xf).2 parity
  let s := if zee2sym then s1.map (fun a => |a|) else s1
  (List.zipWith (· + ·) t (List.zipWith (· * ·) xa (s.map (fun a => rexp (-a)))),
   log0 - sum_density s)

/-- `AffineList_.atomic_backward`: `active = (active' - t) * exp(s)` and the
log-Jacobian increases by `sum(s)`. -/
def affine_atomic_backward (rexp : ℚ → ℚ) (zee2sym : Bool) (m : List Bool)
    (net : List ℚ → List ℚ × List ℚ) (parity : Nat) (xa xf : List ℚ)
    (log0 : ℚ) : List ℚ × ℚ :=
  let t := purify m (net xf).1 parity
  let s1 := purify m (net xf).2 parity
  let s := if zee2sym then s1.map (fun a => |a|) else s1
  (List.zipWith (· * ·) (List.zipWith (· - ·) xa t) (s.map rexp),
   log0 + sum_density s)

/-- The loop of `CouplingList_.forward` on the split channel pair: at step `k`
layer `nets[k]` transforms channel `k % 2` conditioned on the other channel,
threading the accumulated log-Jacobian. -/
def runLayers {N : Type} (atomic : Nat → N → List ℚ → List ℚ → ℚ → List ℚ × ℚ) :
    Nat → List N → (List ℚ × List ℚ) → ℚ → (List ℚ × List ℚ) × ℚ
  | _, [], p, l => (p, l)
  | k, net :: nets, p, l =>
      let parity := k % 2
      let xa := if parity = 0 then p.1 else p.2
      let xf := if parity = 0 then p.2 else p.1
      let r := atomic parity net xa xf l
      runLayers atomic (k + 1) nets (if parity = 0 then (r.1, p.2) else (p.1, r.1)) r.2

/-- The loop of `CouplingList_.backward`: the same layer list processed in
reverse order (`k` counts down), each layer applying its atomic backward. -/
def runLayersRev {N : Type} (atomic : Nat → N → List ℚ → List ℚ → ℚ → List ℚ × ℚ) :
    Nat → List N → (List ℚ × List ℚ) → ℚ → (List ℚ × List ℚ) × ℚ
  | _, [], p, l => (p, l)
  | k, net :: nets, p, l =>
      let parity := k % 2
      let xa := if parity = 0 then p.1 else p.2
      let xf := if parity = 0 then p.2 else p.1
      let r := atomic parity net xa xf l
      runLayersRev atomic (k - 1) nets (if parity = 0 then (r.1, p.2) else (p.1, r.1)) r.2

/-- `CouplingList_.forward(x, log0)`: split, run the layers in order, cat. -/
def coupling_forward {N : Type} (atomic : Nat → N → List ℚ → List ℚ → ℚ → List ℚ × ℚ)
    (m : List Bool) (nets : List N) (x : List ℚ) (log0 : ℚ) : List ℚ × ℚ :=
  let out := runLayers atomic 0 nets (split m x) log0
  (cat out.1.1 out.1.2, out.2)

/-- `CouplingList_.backward(x, log0)`: split, run the layers in reverse order
(`list(range(len(nets)))[::-1]`), cat. -/
def coupling_backward {N : Type} (atomic : Nat → N → List ℚ → List ℚ → ℚ → List ℚ × ℚ)
    (m : List Bool) (nets : List N) (x : List ℚ) (log0 : ℚ) : List ℚ × ℚ :=
  let out := runLayersRev atomic (nets.length - 1) nets.reverse (split m x) log0
  (cat out.1.1 out.1.2, out.2)

/-- `ShiftList_` forward. -/
def shiftList_forward (m : List Bool) (nets : List (List ℚ → List ℚ)) :
    List ℚ → ℚ → List ℚ × ℚ :=
  coupling_forward (fun parity net xa xf l => shift_atomic_forward m net parity xa xf l)
    m nets

/-- `ShiftList_` backward. -/
def shiftList_backward (m : List Bool) (nets : List (List ℚ → List ℚ)) :
    List ℚ → ℚ → List ℚ × ℚ :=
  coupling_backward (fun parity net xa xf l => shift_atomic_backward m net parity xa xf l)
    m nets

/-- `AffineList_` forward. -/
def affineList_forward (rexp : ℚ → ℚ) (zee2sym : Bool) (m : List Bool)
    (nets : List (List ℚ → List ℚ × List ℚ)) : List ℚ → ℚ → List ℚ × ℚ :=
  coupling_forward
    (fun parity net xa xf l => affine_atomic_forward rexp zee2sym m net parity xa xf l)
    m nets

/-- `AffineList_` backward. -/
def affineList_backward (rexp : ℚ → ℚ) (zee2sym : Bool) (m : List Bool)
    (nets : List (List ℚ → List ℚ × List ℚ)) : List ℚ → ℚ → List ℚ × ℚ :=
  coupling_backward
    (fun parity net xa xf l => affine_atomic_backward rexp zee2sym m net parity xa xf l)
    m nets

/-- A channel field is pure when it has the mask's length and is unchanged by
purification (zero outside its channel's support). -/
def Pure (m : List Bool) (ch : Nat) (x : List ℚ) : Prop :=
  x.length = m.length ∧ purify m x ch = x

end Coupling

namespace Coupling

theorem chan_cons (b : Bool) (m : List Bool) (ch : Nat) :
    chan (b :: m) ch =
      (if ch = 0 then 1 - ind01 b else ind01 b) :: chan m ch := by
  by_cases h : ch = 0 <;> simp [chan, h]

theorem length_chan (m : List Bool) (ch : Nat) : (chan m ch).length = m.length := by
  by_cases h : ch = 0 <;> simp [chan, h]

theorem chan_mem_idem (m : List Bool) (ch : Nat) :
    ∀ a ∈ chan m ch, a * a = a := by
  intro a ha
  by_cases h : ch = 0 <;>
    simp only [chan, h, if_true, if_false, List.mem_map] at ha <;>
    obtain ⟨b, -, rfl⟩ := ha <;> cases b <;> simp [ind01]

theorem wmul_idem (c x : List ℚ) (h : ∀ a ∈ c, a * a = a) :
    wmul c (wmul c x) = wmul c x := by
  induction c generalizing x with
  | nil => rfl
  | cons a c ih =>
      cases x with
      | nil => rfl
      | cons v x =>
          have ha : a * a = a := h a (by simp)
          have h' : ∀ a ∈ c, a * a = a := fun a ha => h a (by simp [ha])
          simp only [wmul, List.zipWith_cons_cons] at *
          rw [ih x h']
          congr 1
          rw [← mul_assoc, ha]

theorem length_purify (m : List Bool) (x : List ℚ) (ch : Nat)
    (hx : x.length = m.length) : (purify m x ch).length = m.length := by
  simp [purify, wmul, length_chan, hx]

theorem pure_purify (m : List Bool) (x : List ℚ) (ch : Nat)
    (hx : x.length = m.length) : Pure m ch (purify m x ch) :=
  ⟨length_purify m x ch hx, wmul_idem (chan m ch) x (chan_mem_idem m ch)⟩

theorem pure_nil (ch : Nat) (x : List ℚ) (hx : x.length = 0) : Pure [] ch x := by
  rw [List.length_eq_zero] at hx
  subst hx
  exact ⟨rfl, by cases ch <;> rfl⟩

theorem pure_cons_iff (b : Bool) (m : List Bool) (ch : Nat) (v : ℚ) (x : List ℚ) :
    Pure (b :: m) ch (v :: x) ↔
      ((if ch = 0 then 1 - ind01 b else ind01 b) * v = v) ∧ Pure m ch x := by
  unfold Pure purify wmul
  rw [chan_cons]
  simp only [List.zipWith_cons_cons, List.length_cons, List.cons.injEq,
    Nat.succ.injEq]
  constructor
  · rintro ⟨h1, h2, h3⟩
    exact ⟨h2, h1, h3⟩
  · rintro ⟨h2, h1, h3⟩
    exact ⟨h1, h2, h3⟩

theorem pure_length {m : List Bool} {ch : Nat} {x : List ℚ} (h : Pure m ch x) :
    x.length = m.length := h.1

theorem cat_split_id (m : List Bool) (x : List ℚ) (hx : x.length = m.length) :
    cat (split m x).1 (split m x).2 = x := by
  induction m generalizing x with
  | nil =>
      rw [List.length_nil, List.length_eq_zero] at hx
      subst hx
      rfl
  | cons b m ih =>
      cases x with
      | nil => simp at hx
      | cons v xs =>
          have hx' : xs.length = m.length := by simpa using hx
          have := ih xs hx'
          simp only [split, cat, purify, wmul, chan_cons,
            List.zipWith_cons_cons] at *
          rw [this]
          congr 1
          cases b <;> simp [ind01] <;> ring

theorem split_cat_id (m : List Bool) (a b : List ℚ)
    (ha : Pure m 0 a) (hb : Pure m 1 b) : split m (cat a b) = (a, b) := by
  induction m generalizing a b with
  | nil =>
      obtain ⟨ha1, -⟩ := ha
      obtain ⟨hb1, -⟩ := hb
      rw [List.length_nil, List.length_eq_zero] at ha1 hb1
      subst ha1
      subst hb1
      rfl
  | cons c m ih =>
      cases a with
      | nil => exact absurd (pure_length ha) (by simp)
      | cons va as =>
          cases b with
          | nil => exact absurd (pure_length hb) (by simp)
          | cons vb bs =>
              obtain ⟨hha, hta⟩ := (pure_cons_iff c m 0 va as).mp ha
              obtain ⟨hhb, htb⟩ := (pure_cons_iff c m 1 vb bs).mp hb
              have hsplit := ih as bs hta htb
              have h1 : wmul (chan m 0) (cat as bs) = as :=
                congrArg Prod.fst hsplit
              have h2 : wmul (chan m 1) (cat as bs) = bs :=
                congrArg Prod.snd hsplit
              have hha1 : (1 - ind01 c) * va = va := by simpa using hha
              have hhb1 : ind01 c * vb = vb := by simpa using hhb
              show ((1 - ind01 c) * (va + vb) :: wmul (chan m 0) (cat as bs),
                    ind01 c * (va + vb) :: wmul (chan m 1) (cat as bs)) =
                  (va :: as, vb :: bs)
              rw [h1, h2, Prod.mk.injEq]
              simp only [List.cons.injEq]
              refine ⟨⟨?_, trivial⟩, ⟨?_, trivial⟩⟩
              · cases c <;> simp [ind01] at hha1 hhb1 ⊢ <;> linarith
              · cases c <;> simp [ind01] at hha1 hhb1 ⊢ <;> linarith

theorem split_pure (m : List Bool) (x : List ℚ) (hx : x.length = m.length) :
    Pure m 0 (split m x).1 ∧ Pure m 1 (split m x).2 :=
  ⟨pure_purify m x 0 hx, pure_purify m x 1 hx⟩

end Coupling

namespace Coupling

theorem runLayers_cons {N : Type}
    (aF : Nat → N → List ℚ → List ℚ → ℚ → List ℚ × ℚ)
    (k : Nat) (net : N) (nets : List N) (p : List ℚ × List ℚ) (l : ℚ) :
    runLayers aF k (net :: nets) p l =
      runLayers aF (k + 1) nets
        (if k % 2 = 0 then ((aF (k % 2) net p.1 p.2 l).1, p.2)
         else (p.1, (aF (k % 2) net p.2 p.1 l).1))
        (if k % 2 = 0 then (aF (k % 2) net p.1 p.2 l).2
         else (aF (k % 2) net p.2 p.1 l).2) := by
  by_cases hk : k % 2 = 0 <;> simp [runLayers, hk]

theorem runLayersRev_cons {N : Type}
    (aB : Nat → N → List ℚ → List ℚ → ℚ → List ℚ × ℚ)
    (k : Nat) (net : N) (nets : List N) (p : List ℚ × List ℚ) (l : ℚ) :
    runLayersRev aB k (net :: nets) p l =
      runLayersRev aB (k - 1) nets
        (if k % 2 = 0 then ((aB (k % 2) net p.1 p.2 l).1, p.2)
         else (p.1, (aB (k % 2) net p.2 p.1 l).1))
        (if k % 2 = 0 then (aB (k % 2) net p.1 p.2 l).2
         else (aB (k % 2) net p.2 p.1 l).2) := by
  by_cases hk : k % 2 = 0 <;> simp [runLayersRev, hk]

theorem runLayers_log {N : Type}
    (aF : Nat → N → List ℚ → List ℚ → ℚ → List ℚ × ℚ)
    (hlog : ∀ parity net xa xf l,
      aF parity net xa xf l =
        ((aF parity net xa xf 0).1, l + (aF parity net xa xf 0).2)) :
    ∀ (nets : List N) (k : Nat) (p : List ℚ × List ℚ) (l l' : ℚ),
      (runLayers aF k nets p l).1 = (runLayers aF k nets p l').1 ∧
      (runLayers aF k nets p l).2 - l = (runLayers aF k nets p l').2 - l' := by
  intro nets
  induction nets with
  | nil =>
      intro k p l l'
      exact ⟨rfl, by simp [runLayers]⟩
  | cons net nets ih =>
      intro k p l l'
      rw [runLayers_cons, runLayers_cons]
      by_cases hk : k % 2 = 0
      · simp only [hk, if_true]
        rw [hlog 0 net p.1 p.2 l, hlog 0 net p.1 p.2 l']
        obtain ⟨h1, h2⟩ := ih (k + 1) ((aF 0 net p.1 p.2 0).1, p.2)
          (l + (aF 0 net p.1 p.2 0).2) (l' + (aF 0 net p.1 p.2 0).2)
        exact ⟨h1, by linarith⟩
      · simp only [hk, if_false]
        rw [hlog (k % 2) net p.2 p.1 l, hlog (k % 2) net p.2 p.1 l']
        obtain ⟨h1, h2⟩ := ih (k + 1) (p.1, (aF (k % 2) net p.2 p.1 0).1)
          (l + (aF (k % 2) net p.2 p.1 0).2) (l' + (aF (k % 2) net p.2 p.1 0).2)
        exact ⟨h1, by linarith⟩

theorem runLayersRev_append {N : Type}
    (aB : Nat → N → List ℚ → List ℚ → ℚ → List ℚ × ℚ) :
    ∀ (l1 l2 : List N) (k : Nat) (p : List ℚ × List ℚ) (l : ℚ),
      runLayersRev aB k (l1 ++ l2) p l =
        runLayersRev aB (k - l1.length) l2
          (runLayersRev aB k l1 p l).1 (runLayersRev aB k l1 p l).2 := by
  intro l1
  induction l1 with
  | nil =>
      intro l2 k p l
      simp [runLayersRev]
  | cons net l1 ih =>
      intro l2 k p l
      rw [List.cons_append, runLayersRev_cons, runLayersRev_cons, ih]
      have : k - 1 - l1.length = k - (net :: l1).length := by
        simp only [List.length_cons]
        omega
      rw [this]

end Coupling

namespace Coupling

theorem runLayers_inversion {N : Type}
    (aF aB : Nat → N → List ℚ → List ℚ → ℚ → List ℚ × ℚ) (m : List Bool)
    (hlogF : ∀ parity net xa xf l,
      aF parity net xa xf l =
        ((aF parity net xa xf 0).1, l + (aF parity net xa xf 0).2))
    (hlogB : ∀ parity net xa xf l,
      aB parity net xa xf l =
        ((aB parity net xa xf 0).1, l + (aB parity net xa xf 0).2)) :
    ∀ (nets : List N),
      (∀ k net, net ∈ nets → ∀ xa xf, Pure m (k % 2) xa →
        Pure m (1 - k % 2) xf → Pure m (k % 2) (aF (k % 2) net xa xf 0).1) →
      (∀ k net, net ∈ nets → ∀ xa xf, Pure m (k % 2) xa →
        Pure m (1 - k % 2) xf →
        aB (k % 2) net (aF (k % 2) net xa xf 0).1 xf 0 =
          (xa, -(aF (k % 2) net xa xf 0).2)) →
      ∀ (k : Nat) (p : List ℚ × List ℚ) (l2 : ℚ),
        Pure m 0 p.1 → Pure m 1 p.2 →
        (Pure m 0 (runLayers aF k nets p 0).1.1 ∧
         Pure m 1 (runLayers aF k nets p 0).1.2) ∧
        runLayersRev aB (k + nets.length - 1) nets.reverse
            (runLayers aF k nets p 0).1 l2 =
          (p, l2 - (runLayers aF k nets p 0).2) := by
  intro nets
  induction nets with
  | nil =>
      intro _ _ k p l2 hp0 hp1
      refine ⟨⟨hp0, hp1⟩, ?_⟩
      show (p, l2) = (p, l2 - (0 : ℚ))
      rw [sub_zero]
  | cons net nets ih =>
      intro hpres hinv k p l2 hp0 hp1
      have hpres' : ∀ k2 n, n ∈ nets → ∀ xa xf, Pure m (k2 % 2) xa →
          Pure m (1 - k2 % 2) xf → Pure m (k2 % 2) (aF (k2 % 2) n xa xf 0).1 :=
        fun k2 n hn => hpres k2 n (List.mem_cons_of_mem _ hn)
      have hinv' : ∀ k2 n, n ∈ nets → ∀ xa xf, Pure m (k2 % 2) xa →
          Pure m (1 - k2 % 2) xf →
          aB (k2 % 2) n (aF (k2 % 2) n xa xf 0).1 xf 0 =
            (xa, -(aF (k2 % 2) n xa xf 0).2) :=
        fun k2 n hn => hinv k2 n (List.mem_cons_of_mem _ hn)
      have hmem : net ∈ net :: nets := List.mem_cons_self _ _
      have hlen : k + (net :: nets).length - 1 = k + nets.length := by
        simp only [List.length_cons]
        omega
      have hcnt : k + 1 + nets.length - 1 = k + nets.length := by omega
      have hcnt2 : k + nets.length - nets.reverse.length = k := by
        simp only [List.length_reverse]
        omega
      by_cases hk : k % 2 = 0
      · have hp0' : Pure m (k % 2) p.1 := by rw [hk]; exact hp0
        have hp1' : Pure m (1 - k % 2) p.2 := by rw [hk]; exact hp1
        have hA : Pure m 0 (aF (k % 2) net p.1 p.2 0).1 := by
          have h := hpres k net hmem p.1 p.2 hp0' hp1'
          revert h
          generalize (aF (k % 2) net p.1 p.2 0).1 = X
          intro h
          rwa [hk] at h
        have hfwd : runLayers aF k (net :: nets) p 0 =
            runLayers aF (k + 1) nets ((aF (k % 2) net p.1 p.2 0).1, p.2)
              (aF (k % 2) net p.1 p.2 0).2 := by
          rw [runLayers_cons, if_pos hk, if_pos hk]
        obtain ⟨hadd1, hadd2⟩ := runLayers_log aF hlogF nets (k + 1)
          ((aF (k % 2) net p.1 p.2 0).1, p.2) (aF (k % 2) net p.1 p.2 0).2 0
        obtain ⟨⟨hv0, hv1⟩, hrev⟩ := ih hpres' hinv' (k + 1)
          ((aF (k % 2) net p.1 p.2 0).1, p.2) l2 hA hp1
        rw [hcnt] at hrev
        refine ⟨⟨?_, ?_⟩, ?_⟩
        · rw [hfwd, hadd1]
          exact hv0
        · rw [hfwd, hadd1]
          exact hv1
        · rw [hfwd, hlen, List.reverse_cons, runLayersRev_append, hadd1, hrev,
            hcnt2, runLayersRev_cons, if_pos hk, if_pos hk,
            hlogB (k % 2) net (aF (k % 2) net p.1 p.2 0).1 p.2,
            hinv k net hmem p.1 p.2 hp0' hp1']
          show ((p.1, p.2),
              l2 - (runLayers aF (k + 1) nets ((aF (k % 2) net p.1 p.2 0).1, p.2) 0).2
                + -(aF (k % 2) net p.1 p.2 0).2) = _
          rw [Prod.ext_iff]
          refine ⟨Prod.mk.eta, ?_⟩
          dsimp only
          linarith [hadd2]
      · have hk1 : k % 2 = 1 := (Nat.mod_two_eq_zero_or_one k).resolve_left hk
        have hp1' : Pure m (k % 2) p.2 := by rw [hk1]; exact hp1
        have hp0' : Pure m (1 - k % 2) p.1 := by rw [hk1]; exact hp0
        have hA : Pure m 1 (aF (k % 2) net p.2 p.1 0).1 := by
          have h := hpres k net hmem p.2 p.1 hp1' hp0'
          revert h
          generalize (aF (k % 2) net p.2 p.1 0).1 = X
          intro h
          rwa [hk1] at h
        have hfwd : runLayers aF k (net :: nets) p 0 =
            runLayers aF (k + 1) nets (p.1, (aF (k % 2) net p.2 p.1 0).1)
              (aF (k % 2) net p.2 p.1 0).2 := by
          rw [runLayers_cons, if_neg hk, if_neg hk]
        obtain ⟨hadd1, hadd2⟩ := runLayers_log aF hlogF nets (k + 1)
          (p.1, (aF (k % 2) net p.2 p.1 0).1) (aF (k % 2) net p.2 p.1 0).2 0
        obtain ⟨⟨hv0, hv1⟩, hrev⟩ := ih hpres' hinv' (k + 1)
          (p.1, (aF (k % 2) net p.2 p.1 0).1) l2 hp0 hA
        rw [hcnt] at hrev
        refine ⟨⟨?_, ?_⟩, ?_⟩
        · rw [hfwd, hadd1]
          exact hv0
        · rw [hfwd, hadd1]
          exact hv1
        · rw [hfwd, hlen, List.reverse_cons, runLayersRev_append, hadd1, hrev,
            hcnt2, runLayersRev_cons, if_neg hk, if_neg hk,
            hlogB (k % 2) net (aF (k % 2) net p.2 p.1 0).1 p.1,
            hinv k net hmem p.2 p.1 hp1' hp0']
          show ((p.1, p.2),
              l2 - (runLayers aF (k + 1) nets (p.1, (aF (k % 2) net p.2 p.1 0).1) 0).2
                + -(aF (k % 2) net p.2 p.1 0).2) = _
          rw [Prod.ext_iff]
          refine ⟨Prod.mk.eta, ?_⟩
          dsimp only
          linarith [hadd2]

end Coupling

namespace Coupling

theorem shift_cancel (m : List Bool) (ch : Nat) :
    ∀ (xa t : List ℚ), Pure m ch xa → t.length = m.length →
    purify m (List.zipWith (· - ·)
      (purify m (List.zipWith (· + ·) xa t) ch) t) ch = xa := by
  induction m with
  | nil =>
      intro xa t hxa ht
      have hx0 := pure_length hxa
      rw [List.length_nil, List.length_eq_zero] at hx0 ht
      subst hx0
      subst ht
      by_cases h : ch = 0 <;> simp [purify, wmul, chan, h]
  | cons b m ih =>
      intro xa t hxa ht
      cases xa with
      | nil => exact absurd (pure_length hxa) (by simp)
      | cons v xs =>
          cases t with
          | nil => simp at ht
          | cons w ws =>
              obtain ⟨hv, hxs⟩ := (pure_cons_iff b m ch v xs).mp hxa
              have hws : ws.length = m.length := by simpa using ht
              simp only [purify, wmul, chan_cons, List.zipWith_cons_cons,
                List.cons.injEq]
              constructor
              · have hc : (if ch = 0 then 1 - ind01 b else ind01 b) *
                    (if ch = 0 then 1 - ind01 b else ind01 b) =
                    (if ch = 0 then 1 - ind01 b else ind01 b) := by
                  by_cases h : ch = 0 <;> cases b <;> simp [ind01, h]
                have expand : (if ch = 0 then 1 - ind01 b else ind01 b) *
                    ((if ch = 0 then 1 - ind01 b else ind01 b) * (v + w) - w) =
                    ((if ch = 0 then 1 - ind01 b else ind01 b) *
                      (if ch = 0 then 1 - ind01 b else ind01 b)) * (v + w) -
                      (if ch = 0 then 1 - ind01 b else ind01 b) * w := by
                  ring
                rw [expand, hc]
                have expand2 : (if ch = 0 then 1 - ind01 b else ind01 b) * (v + w) -
                    (if ch = 0 then 1 - ind01 b else ind01 b) * w =
                    (if ch = 0 then 1 - ind01 b else ind01 b) * v := by
                  ring
                rw [expand2, hv]
              · exact ih xs ws hxs hws

theorem affine_cancel (rexp : ℚ → ℚ) (hexp : ∀ a, rexp (-a) * rexp a = 1) :
    ∀ (xa t s : List ℚ), t.length = xa.length → s.length = xa.length →
    List.zipWith (· * ·)
      (List.zipWith (· - ·)
        (List.zipWith (· + ·) t
          (List.zipWith (· * ·) xa (s.map fun a => rexp (-a)))) t)
      (s.map rexp) = xa := by
  intro xa
  induction xa with
  | nil =>
      intro t s ht hs
      rw [List.length_nil, List.length_eq_zero] at ht hs
      subst ht
      subst hs
      rfl
  | cons v xs ih =>
      intro t s ht hs
      cases t with
      | nil => simp at ht
      | cons w ws =>
          cases s with
          | nil => simp at hs
          | cons a as =>
              simp only [List.map_cons, List.zipWith_cons_cons, List.cons.injEq]
              refine ⟨?_, ih ws as (by simpa using ht) (by simpa using hs)⟩
              have h := hexp a
              calc (w + v * rexp (-a) - w) * rexp a
                  = v * (rexp (-a) * rexp a) := by ring
                _ = v := by rw [h]; ring

theorem pure_add (m : List Bool) (ch : Nat) :
    ∀ (a b : List ℚ), Pure m ch a → Pure m ch b →
      Pure m ch (List.zipWith (· + ·) a b) := by
  induction m with
  | nil =>
      intro a b ha hb
      have ha0 := pure_length ha
      have hb0 := pure_length hb
      rw [List.length_nil, List.length_eq_zero] at ha0 hb0
      subst ha0
      subst hb0
      exact pure_nil ch [] rfl
  | cons c m ih =>
      intro a b ha hb
      cases a with
      | nil => exact absurd (pure_length ha) (by simp)
      | cons va as =>
          cases b with
          | nil => exact absurd (pure_length hb) (by simp)
          | cons vb bs =>
              obtain ⟨hha, hta⟩ := (pure_cons_iff c m ch va as).mp ha
              obtain ⟨hhb, htb⟩ := (pure_cons_iff c m ch vb bs).mp hb
              rw [List.zipWith_cons_cons, pure_cons_iff]
              exact ⟨by rw [mul_add, hha, hhb], ih as bs hta htb⟩

theorem pure_mul (m : List Bool) (ch : Nat) :
    ∀ (a e : List ℚ), Pure m ch a → e.length = m.length →
      Pure m ch (List.zipWith (· * ·) a e) := by
  induction m with
  | nil =>
      intro a e ha he
      have ha0 := pure_length ha
      rw [List.length_nil, List.length_eq_zero] at ha0 he
      subst ha0
      subst he
      exact pure_nil ch [] rfl
  | cons c m ih =>
      intro a e ha he
      cases a with
      | nil => exact absurd (pure_length ha) (by simp)
      | cons va as =>
          cases e with
          | nil => simp at he
          | cons ev es =>
              obtain ⟨hha, hta⟩ := (pure_cons_iff c m ch va as).mp ha
              rw [List.zipWith_cons_cons, pure_cons_iff]
              exact ⟨by rw [← mul_assoc, hha], ih as es hta (by simpa using he)⟩

end Coupling

namespace Coupling

theorem shift_log (m : List Bool) (net : List ℚ → List ℚ) (parity : Nat)
    (xa xf : List ℚ) (l : ℚ) :
    shift_atomic_forward m net parity xa xf l =
      ((shift_atomic_forward m net parity xa xf 0).1,
       l + (shift_atomic_forward m net parity xa xf 0).2) := by
  simp [shift_atomic_forward]

theorem shift_logB (m : List Bool) (net : List ℚ → List ℚ) (parity : Nat)
    (xa xf : List ℚ) (l : ℚ) :
    shift_atomic_backward m net parity xa xf l =
      ((shift_atomic_backward m net parity xa xf 0).1,
       l + (shift_atomic_backward m net parity xa xf 0).2) := by
  simp [shift_atomic_backward]

theorem shift_pres (m : List Bool) (net : List ℚ → List ℚ)
    (hnet : ∀ z, (net z).length = m.length) (ch : Nat) (xa xf : List ℚ)
    (hxa : Pure m ch xa) :
    Pure m ch (shift_atomic_forward m net ch xa xf 0).1 := by
  apply pure_purify
  rw [List.length_zipWith, pure_length hxa, hnet]
  exact min_self _

theorem shift_inv (m : List Bool) (net : List ℚ → List ℚ)
    (hnet : ∀ z, (net z).length = m.length) (ch : Nat) (xa xf : List ℚ)
    (hxa : Pure m ch xa) :
    shift_atomic_backward m net ch
        (shift_atomic_forward m net ch xa xf 0).1 xf 0 =
      (xa, -(shift_atomic_forward m net ch xa xf 0).2) := by
  simp only [shift_atomic_forward, shift_atomic_backward]
  rw [shift_cancel m ch xa (net xf) hxa (hnet xf)]
  norm_num

theorem affine_log (rexp : ℚ → ℚ) (zee2sym : Bool) (m : List Bool)
    (net : List ℚ → List ℚ × List ℚ) (parity : Nat) (xa xf : List ℚ) (l : ℚ) :
    affine_atomic_forward rexp zee2sym m net parity xa xf l =
      ((affine_atomic_forward rexp zee2sym m net parity xa xf 0).1,
       l + (affine_atomic_forward rexp zee2sym m net parity xa xf 0).2) := by
  unfold affine_atomic_forward
  dsimp only
  rw [Prod.ext_iff]
  exact ⟨rfl, by ring⟩

theorem affine_logB (rexp : ℚ → ℚ) (zee2sym : Bool) (m : List Bool)
    (net : List ℚ → List ℚ × List ℚ) (parity : Nat) (xa xf : List ℚ) (l : ℚ) :
    affine_atomic_backward rexp zee2sym m net parity xa xf l =
      ((affine_atomic_backward rexp zee2sym m net parity xa xf 0).1,
       l + (affine_atomic_backward rexp zee2sym m net parity xa xf 0).2) := by
  unfold affine_atomic_backward
  dsimp only
  rw [Prod.ext_iff]
  exact ⟨rfl, by ring⟩

theorem affine_s_length (zee2sym : Bool) (m : List Bool) (s1 : List ℚ)
    (hs1 : s1.length = m.length) :
    (if zee2sym then s1.map (fun a => |a|) else s1).length = m.length := by
  cases zee2sym <;> simp [hs1]

theorem affine_pres (rexp : ℚ → ℚ) (zee2sym : Bool) (m : List Bool)
    (net : List ℚ → List ℚ × List ℚ)
    (hnet : ∀ z, ((net z).1.length = m.length ∧ (net z).2.length = m.length))
    (ch : Nat) (xa xf : List ℚ) (hxa : Pure m ch xa) :
    Pure m ch (affine_atomic_forward rexp zee2sym m net ch xa xf 0).1 := by
  unfold affine_atomic_forward
  dsimp only
  apply pure_add
  · exact pure_purify m (net xf).1 ch (hnet xf).1
  · apply pure_mul m ch xa _ hxa
    rw [List.length_map]
    exact affine_s_length zee2sym m _ (length_purify m (net xf).2 ch (hnet xf).2)

theorem affine_inv (rexp : ℚ → ℚ) (hexp : ∀ a, rexp (-a) * rexp a = 1)
    (zee2sym : Bool) (m : List Bool) (net : List ℚ → List ℚ × List ℚ)
    (hnet : ∀ z, ((net z).1.length = m.length ∧ (net z).2.length = m.length))
    (ch : Nat) (xa xf : List ℚ) (hxa : Pure m ch xa) :
    affine_atomic_backward rexp zee2sym m net ch
        (affine_atomic_forward rexp zee2sym m net ch xa xf 0).1 xf 0 =
      (xa, -(affine_atomic_forward rexp zee2sym m net ch xa xf 0).2) := by
  unfold affine_atomic_forward affine_atomic_backward
  dsimp only
  rw [Prod.ext_iff]
  constructor
  · apply affine_cancel rexp hexp
    · rw [length_purify m (net xf).1 ch (hnet xf).1, pure_length hxa]
    · rw [affine_s_length zee2sym m _
        (length_purify m (net xf).2 ch (hnet xf).2), pure_length hxa]
  · dsimp only
    ring

end Coupling

namespace Coupling

theorem coupling_inversion_generic {N : Type}
    (aF aB : Nat → N → List ℚ → List ℚ → ℚ → List ℚ × ℚ) (m : List Bool)
    (nets : List N) (x : List ℚ) (hx : x.length = m.length)
    (hlogF : ∀ parity net xa xf l,
      aF parity net xa xf l =
        ((aF parity net xa xf 0).1, l + (aF parity net xa xf 0).2))
    (hlogB : ∀ parity net xa xf l,
      aB parity net xa xf l =
        ((aB parity net xa xf 0).1, l + (aB parity net xa xf 0).2))
    (hpres : ∀ k net, net ∈ nets → ∀ xa xf, Pure m (k % 2) xa →
      Pure m (1 - k % 2) xf → Pure m (k % 2) (aF (k % 2) net xa xf 0).1)
    (hinv : ∀ k net, net ∈ nets → ∀ xa xf, Pure m (k % 2) xa →
      Pure m (1 - k % 2) xf →
      aB (k % 2) net (aF (k % 2) net xa xf 0).1 xf 0 =
        (xa, -(aF (k % 2) net xa xf 0).2)) :
    (coupling_backward aB m nets (coupling_forward aF m nets x 0).1 0).1 = x ∧
    (coupling_forward aF m nets x 0).2 +
      (coupling_backward aB m nets (coupling_forward aF m nets x 0).1 0).2 = 0 := by
  obtain ⟨⟨hv0, hv1⟩, hrev⟩ := runLayers_inversion aF aB m hlogF hlogB nets
    hpres hinv 0 (split m x) 0 (split_pure m x hx).1 (split_pure m x hx).2
  have hzero : (0 : Nat) + nets.length - 1 = nets.length - 1 := by omega
  rw [hzero] at hrev
  have hsplit2 : split m (coupling_forward aF m nets x 0).1 =
      ((runLayers aF 0 nets (split m x) 0).1.1,
       (runLayers aF 0 nets (split m x) 0).1.2) :=
    split_cat_id m _ _ hv0 hv1
  have hG : runLayersRev aB (nets.length - 1) nets.reverse
      (split m (coupling_forward aF m nets x 0).1) 0 =
      (split m x, 0 - (runLayers aF 0 nets (split m x) 0).2) := by
    rw [hsplit2]
    rw [show ((runLayers aF 0 nets (split m x) 0).1.1,
        (runLayers aF 0 nets (split m x) 0).1.2) =
        (runLayers aF 0 nets (split m x) 0).1 from Prod.mk.eta]
    exact hrev
  have hB : coupling_backward aB m nets (coupling_forward aF m nets x 0).1 0 =
      (cat (split m x).1 (split m x).2,
       0 - (runLayers aF 0 nets (split m x) 0).2) := by
    show (cat (runLayersRev aB (nets.length - 1) nets.reverse
            (split m (coupling_forward aF m nets x 0).1) 0).1.1
          (runLayersRev aB (nets.length - 1) nets.reverse
            (split m (coupling_forward aF m nets x 0).1) 0).1.2,
         (runLayersRev aB (nets.length - 1) nets.reverse
            (split m (coupling_forward aF m nets x 0).1) 0).2) = _
    rw [hG]
  constructor
  · rw [hB]
    show cat (split m x).1 (split m x).2 = x
    exact cat_split_id m x hx
  · rw [hB]
    show (runLayers aF 0 nets (split m x) 0).2 +
      (0 - (runLayers aF 0 nets (split m x) 0).2) = 0
    ring

end Coupling

/-- Specification of coupling-list invertibility for the shift and affine
engines over a same-shape 0/1 mask: for every layer list whose nets produce
outputs of the mask's size — and, for the affine engine, every exponential map
`rexp` with `rexp (-a) * rexp a = 1` (as the real `exp` has) and either
`zee2sym` setting — `backward` applied to the output of `forward(x, log0=0)`
returns exactly `x`, and the log-Jacobian accumulated by `forward` plus the
log-Jacobian accumulated by `backward` is zero. -/
def CouplingInversionSpec (m : List Bool) (x : List ℚ) : Prop :=
  (∀ nets : List (List ℚ → List ℚ),
    (∀ net ∈ nets, ∀ z, (net z).length = m.length) →
    (Coupling.shiftList_backward m nets
        (Coupling.shiftList_forward m nets x 0).1 0).1 = x ∧
    (Coupling.shiftList_forward m nets x 0).2 +
      (Coupling.shiftList_backward m nets
        (Coupling.shiftList_forward m nets x 0).1 0).2 = 0) ∧
  (∀ (rexp : ℚ → ℚ) (zee2sym : Bool)
      (nets : List (List ℚ → List ℚ × List ℚ)),
    (∀ a, rexp (-a) * rexp a = 1) →
    (∀ net ∈ nets, ∀ z,
      ((net z).1.length = m.length ∧ (net z).2.length = m.length)) →
    (Coupling.affineList_backward rexp zee2sym m nets
        (Coupling.affineList_forward rexp zee2sym m nets x 0).1 0).1 = x ∧
    (Coupling.affineList_forward rexp zee2sym m nets x 0).2 +
      (Coupling.affineList_backward rexp zee2sym m nets
        (Coupling.affineList_forward rexp zee2sym m nets x 0).1 0).2 = 0)

/-- C1: coupling-list invertibility for the shift and affine engines, any
mask, any nets of the right output size, any layer count. -/
theorem coupling_backward_forward (m : List Bool) (x : List ℚ)
    (hx : x.length = m.length) : CouplingInversionSpec m x := by
  constructor
  · intro nets hnets
    exact Coupling.coupling_inversion_generic _ _ m nets x hx
      (fun parity net xa xf l => Coupling.shift_log m net parity xa xf l)
      (fun parity net xa xf l => Coupling.shift_logB m net parity xa xf l)
      (fun k net hn xa xf hxa _ =>
        Coupling.shift_pres m net (hnets net hn) (k % 2) xa xf hxa)
      (fun k net hn xa xf hxa _ =>
        Coupling.shift_inv m net (hnets net hn) (k % 2) xa xf hxa)
  · intro rexp zee2sym nets hexp hnets
    exact Coupling.coupling_inversion_generic _ _ m nets x hx
      (fun parity net xa xf l =>
        Coupling.affine_log rexp zee2sym m net parity xa xf l)
      (fun parity net xa xf l =>
        Coupling.affine_logB rexp zee2sym m net parity xa xf l)
      (fun k net hn xa xf hxa _ =>
        Coupling.affine_pres rexp zee2sym m net (hnets net hn) (k % 2) xa xf hxa)
      (fun k net hn xa xf hxa _ =>
        Coupling.affine_inv rexp hexp zee2sym m net (hnets net hn) (k % 2) xa xf hxa)

/-- Witness for C1 at the mask `[0, 1]` and input `[3, 5]`. -/
theorem coupling_backward_forward_witness :
    CouplingInversionSpec [false, true] [(3 : ℚ), 5] :=
  coupling_backward_forward [false, true] [(3 : ℚ), 5] (by decide)

namespace Cntr

/-- Batched `Mask._sameshape_split`: the mask broadcasts over the batch
axis. -/
def bsplit (m : List Bool) (xb : List (List ℚ)) :
    List (List ℚ) × List (List ℚ) :=
  (xb.map (fun x => (Coupling.split m x).1),
   xb.map (fun x => (Coupling.split m x).2))

/-- Batched `Mask._sameshape_cat`. -/
def bcat (x0 x1 : List (List ℚ)) : List (List ℚ) :=
  List.zipWith Coupling.cat x0 x1

/-- Batched `ShiftList_.atomic_forward` whose frozen input may be a control
term.  `preprocess_fz(x_frozen)` evaluates `x_frozen.unsqueeze(...)`; when the
frozen input is `None` (a controlled list whose `forward` has never run) this
raises `AttributeError` before the net is ever applied. -/
def bshift_atomic_forward (m : List Bool)
    (net : List (List ℚ) → List (List ℚ)) (parity : Nat)
    (xa : List (List ℚ)) (xf : Option (List (List ℚ))) (log0 : ℚ) :
    Except PyErr (List (List ℚ) × ℚ) :=
  match xf with
  | none => .error .attributeError
  | some xfv =>
      .ok (List.zipWith
        (fun xai ti => Coupling.purify m (List.zipWith (· + ·) xai ti) parity)
        xa (net xfv), log0)

/-- Batched `ShiftList_.atomic_backward`, frozen input possibly a control. -/
def bshift_atomic_backward (m : List Bool)
    (net : List (List ℚ) → List (List ℚ)) (parity : Nat)
    (xa : List (List ℚ)) (xf : Option (List (List ℚ))) (log0 : ℚ) :
    Except PyErr (List (List ℚ) × ℚ) :=
  match xf with
  | none => .error .attributeError
  | some xfv =>
      .ok (List.zipWith
        (fun xai ti => Coupling.purify m (List.zipWith (· - ·) xai ti) parity)
        xa (net xfv), log0)

/-- The loop of `DirectCntrCouplingList_.forward`: like `CouplingList_` but the
frozen input of layer `k == 0` is the control term. -/
def dcntrForwardAux {N : Type}
    (atomic : Nat → N → List (List ℚ) → Option (List (List ℚ)) → ℚ →
      Except PyErr (List (List ℚ) × ℚ))
    (control : Option (List (List ℚ))) :
    Nat → List N → (List (List ℚ) × List (List ℚ)) → ℚ →
    Except PyErr ((List (List ℚ) × List (List ℚ)) × ℚ)
  | _, [], p, l => .ok (p, l)
  | k, net :: nets, p, l =>
      let parity := k % 2
      let xa := if parity = 0 then p.1 else p.2
      let xfPlain := if parity = 0 then p.2 else p.1
      let xf := if k = 0 then control else some xfPlain
      match atomic parity net xa xf l with
      | .error e => .error e
      | .ok r =>
          dcntrForwardAux atomic control (k + 1) nets
            (if parity = 0 then (r.1, p.2) else (p.1, r.1)) r.2

/-- The loop of `DirectCntrCouplingList_.backward`: the same layer list in
reverse order, the frozen input of layer `k == 0` again the control term. -/
def dcntrBackwardAux {N : Type}
    (atomic : Nat → N → List (List ℚ) → Option (List (List ℚ)) → ℚ →
      Except PyErr (List (List ℚ) × ℚ))
    (control : Option (List (List ℚ))) :
    Nat → List N → (List (List ℚ) × List (List ℚ)) → ℚ →
    Except PyErr ((List (List ℚ) × List (List ℚ)) × ℚ)
  | _, [], p, l => .ok (p, l)
  | k, net :: nets, p, l =>
      let parity := k % 2
      let xa := if parity = 0 then p.1 else p.2
      let xfPlain := if parity = 0 then p.2 else p.1
      let xf := if k = 0 then control else some xfPlain
      match atomic parity net xa xf l with
      | .error e => .error e
      | .ok r =>
          dcntrBackwardAux atomic control (k - 1) nets
            (if parity = 0 then (r.1, p.2) else (p.1, r.1)) r.2

/-- `DirectCntrCouplingList_.forward((x, control), log0)` (value part). -/
def dcntr_forward {N : Type}
    (atomic : Nat → N → List (List ℚ) → Option (List (List ℚ)) → ℚ →
      Except PyErr (List (List ℚ) × ℚ))
    (m : List Bool) (control : Option (List (List ℚ))) (nets : List N)
    (xb : List (List ℚ)) (log0 : ℚ) : Except PyErr (List (List ℚ) × ℚ) :=
  (dcntrForwardAux atomic control 0 nets (bsplit m xb) log0).map
    (fun out => (bcat out.1.1 out.1.2, out.2))

/-- `DirectCntrCouplingList_.backward((x, control), log0)` (value part). -/
def dcntr_backward {N : Type}
    (atomic : Nat → N → List (List ℚ) → Option (List (List ℚ)) → ℚ →
      Except PyErr (List (List ℚ) × ℚ))
    (m : List Bool) (control : Option (List (List ℚ))) (nets : List N)
    (xb : List (List ℚ)) (log0 : ℚ) : Except PyErr (List (List ℚ) × ℚ) :=
  (dcntrBackwardAux atomic control (nets.length - 1) nets.reverse
      (bsplit m xb) log0).map
    (fun out => (bcat out.1.1 out.1.2, out.2))

/-- `CntrCouplingList_.forward(x, log0)`: generates a fresh control
`control_generator(batch_size)` (`batch_size = x.shape[0]`), stores it in
`self.control`, and runs the direct controlled forward with it.  The result is
paired with the stored control. -/
def cntr_forward {N : Type}
    (atomic : Nat → N → List (List ℚ) → Option (List (List ℚ)) → ℚ →
      Except PyErr (List (List ℚ) × ℚ))
    (m : List Bool) (gen : Nat → List (List ℚ)) (nets : List N)
    (xb : List (List ℚ)) (log0 : ℚ) :
    Except PyErr ((List (List ℚ) × ℚ) × List (List ℚ)) :=
  (dcntr_forward atomic m (some (gen xb.length)) nets xb log0).map
    (fun r => (r, gen xb.length))

/-- `CntrCouplingList_.backward(x, log0)`: runs the direct controlled backward
with the currently stored `self.control` (initially `None`). -/
def cntr_backward {N : Type}
    (atomic : Nat → N → List (List ℚ) → Option (List (List ℚ)) → ℚ →
      Except PyErr (List (List ℚ) × ℚ))
    (m : List Bool) (control : Option (List (List ℚ))) (nets : List N)
    (xb : List (List ℚ)) (log0 : ℚ) : Except PyErr (List (List ℚ) × ℚ) :=
  dcntr_backward atomic m control nets xb log0

/-- `CntrShiftList_.forward`. -/
def cntrShift_forward (m : List Bool) (gen : Nat → List (List ℚ))
    (nets : List (List (List ℚ) → List (List ℚ))) (xb : List (List ℚ))
    (log0 : ℚ) : Except PyErr ((List (List ℚ) × ℚ) × List (List ℚ)) :=
  cntr_forward
    (fun parity net xa xf l => bshift_atomic_forward m net parity xa xf l)
    m gen nets xb log0

/-- `CntrShiftList_.backward`. -/
def cntrShift_backward (m : List Bool) (control : Option (List (List ℚ)))
    (nets : List (List (List ℚ) → List (List ℚ))) (xb : List (List ℚ))
    (log0 : ℚ) : Except PyErr (List (List ℚ) × ℚ) :=
  cntr_backward
    (fun parity net xa xf l => bshift_atomic_backward m net parity xa xf l)
    m control nets xb log0

end Cntr

namespace Cntr

theorem dcntrBackwardAux_none_error (m : List Bool) :
    ∀ (rs : List (List (List ℚ) → List (List ℚ)))
      (p : List (List ℚ) × List (List ℚ)) (l : ℚ), rs ≠ [] →
      dcntrBackwardAux
        (fun parity net xa xf l2 => bshift_atomic_backward m net parity xa xf l2)
        none (rs.length - 1) rs p l = .error .attributeError := by
  intro rs
  induction rs with
  | nil =>
      intro p l h
      exact absurd rfl h
  | cons r rs ih =>
      intro p l _
      cases rs with
      | nil => rfl
      | cons r2 rs2 =>
          show dcntrBackwardAux _ none ((r2 :: rs2).length) (r :: r2 :: rs2) p l
            = .error .attributeError
          simp only [dcntrBackwardAux]
          rw [if_neg (by simp : ¬ (r2 :: rs2).length = 0)]
          simp only [bshift_atomic_backward]
          exact ih _ _ (by simp)

theorem dcntrBackwardAux_some_ok (m : List Bool) (c : List (List ℚ)) :
    ∀ (rs : List (List (List ℚ) → List (List ℚ))) (k : Nat)
      (p : List (List ℚ) × List (List ℚ)) (l : ℚ),
      ∃ out, dcntrBackwardAux
        (fun parity net xa xf l2 => bshift_atomic_backward m net parity xa xf l2)
        (some c) k rs p l = .ok out := by
  intro rs
  induction rs with
  | nil => exact fun k p l => ⟨(p, l), rfl⟩
  | cons r rs ih =>
      intro k p l
      simp only [dcntrBackwardAux]
      rcases hxf : (if k = 0 then (some c : Option (List (List ℚ)))
          else some (if k % 2 = 0 then p.2 else p.1)) with _ | v
      · exfalso
        by_cases hk : k = 0 <;> simp [hk] at hxf
      · simp only [bshift_atomic_backward]
        exact ih _ _ _

theorem cntrShift_backward_none_error (m : List Bool)
    (nets : List (List (List ℚ) → List (List ℚ))) (yb : List (List ℚ))
    (l : ℚ) (hne : nets ≠ []) :
    cntrShift_backward m none nets yb l = .error .attributeError := by
  unfold cntrShift_backward cntr_backward dcntr_backward
  have hrev : nets.reverse ≠ [] := by simpa using hne
  have hlen : nets.length - 1 = nets.reverse.length - 1 := by
    rw [List.length_reverse]
  rw [hlen, dcntrBackwardAux_none_error m nets.reverse _ _ hrev]
  rfl

/-- Specification of the control handling of a generated-control coupling
list (shift atomics): with the stored control still `None` (no `forward` has
run) `backward` raises; any successful `forward` stores exactly
`control_generator(batch_size)` as the control; and `backward` run with that
stored control does not raise. -/
def CntrControlSpec (m : List Bool)
    (nets : List (List (List ℚ) → List (List ℚ))) (gen : Nat → List (List ℚ))
    (xb yb : List (List ℚ)) (l l' : ℚ) : Prop :=
  cntrShift_backward m none nets yb l = .error .attributeError ∧
  (∀ out, cntrShift_forward m gen nets xb l = .ok out →
    out.2 = gen xb.length) ∧
  (∃ out2, cntrShift_backward m (some (gen xb.length)) nets yb l' = .ok out2)

end Cntr

/-- C8 counterexample: a generated-control coupling list with an empty layer
list runs `backward` before any `forward` without raising: the loop body never
executes, so the absent control is never touched and the call returns
normally. -/
theorem cntr_backward_empty_no_error :
    (Cntr.cntrShift_backward [false] none [] [[(2 : ℚ)]] 0).isOk = true := rfl

/-- C8 amended: for a generated-control coupling list with a nonempty layer
list, `backward` before any `forward` raises (an `AttributeError`: the stored
control is `None` and the first layer's frozen-input preprocessing calls
`.unsqueeze` on it) rather than operating on stale or absent control data;
`forward` stores exactly `control_generator(batch_size)`, and the paired
`backward` run with that stored control uses it as layer 0's frozen input and
does not raise. -/
theorem cntr_backward_control (m : List Bool)
    (nets : List (List (List ℚ) → List (List ℚ))) (gen : Nat → List (List ℚ))
    (xb yb : List (List ℚ)) (l l' : ℚ) (hne : nets ≠ []) :
    Cntr.CntrControlSpec m nets gen xb yb l l' := by
  refine ⟨Cntr.cntrShift_backward_none_error m nets yb l hne, ?_, ?_⟩
  · intro out h
    unfold Cntr.cntrShift_forward Cntr.cntr_forward at h
    cases hd : Cntr.dcntr_forward
        (fun parity net xa xf l2 => Cntr.bshift_atomic_forward m net parity xa xf l2)
        m (some (gen xb.length)) nets xb l with
    | error e => rw [hd] at h; simp [Except.map] at h
    | ok v =>
        rw [hd] at h
        simp only [Except.map, Except.ok.injEq] at h
        rw [← h]
  · unfold Cntr.cntrShift_backward Cntr.cntr_backward Cntr.dcntr_backward
    obtain ⟨out, hout⟩ := Cntr.dcntrBackwardAux_some_ok m (gen xb.length)
      nets.reverse (nets.length - 1) (Cntr.bsplit m yb) l'
    rw [hout]
    exact ⟨_, rfl⟩

/-- Witness for C8's amended statement with one identity layer. -/
theorem cntr_backward_control_witness :
    Cntr.CntrControlSpec [false] [fun z => z] (fun _ => [[(1 : ℚ)]])
      [[(2 : ℚ)]] [[(3 : ℚ)]] 0 0 :=
  cntr_backward_control [false] [fun z => z] (fun _ => [[(1 : ℚ)]])
    [[(2 : ℚ)]] [[(3 : ℚ)]] 0 0 (List.cons_ne_nil _ _)

namespace Transfer

/-- The per-instance configuration `CouplingList_.__init__` stores: the layer
functions (bound only to `self.nets`), the mask, and options.  The layer type
`Net` is opaque. -/
structure CouplingConfig (Net : Type) where
  nets : List Net
  mask : List Bool
  channels_axis : Int
  zee2sym : Bool
  label : String

/-- Binding the positional arguments of `CouplingList_.__init__(self, nets, *,
mask, channels_axis=1, zee2sym=False, label=...)` — the binding also reached
through `RQSplineList_.__init__(self, nets, *, mask, ...)` and
`MultiRQSplineList_.__init__(self, nets, *, mask, ...)`, which take the same
single positional parameter: at most ONE positional argument is accepted, and
passing more raises `TypeError` before any constructor body runs. -/
def couplingInitArity (nPositional : Nat) : Except PyErr Unit :=
  if nPositional ≤ 1 then .ok () else .error .typeError

/-- `CouplingList_.transfer(scale_factor, mask=None)`: builds the transferred
net list `[net.transfer(scale_factor) for net in self.nets]` and calls
`self.__class__` with it as the single positional argument, keeping mask (or
the supplied one), `channels_axis`, `zee2sym` and `label`. -/
def couplingList_transfer {Net : Type} (tr : Net → Net)
    (self : CouplingConfig Net) (maskArg : Option (List Bool)) :
    Except PyErr (CouplingConfig Net) := do
  let _ ← couplingInitArity 1
  .ok { nets := self.nets.map tr,
        mask := maskArg.getD self.mask,
        channels_axis := self.channels_axis,
        zee2sym := self.zee2sym,
        label := self.label }

/-- `RQSplineList_.transfer(scale_factor, mask=None)` as written in the
source: it evaluates `self.net0.transfer(...)` and `self.net1.transfer(...)`.
`RQSplineList_.__init__` binds the layer functions only to `self.nets`, so
unless a base class outside these source files provides `net0`/`net1` the
attribute lookups raise `AttributeError`; the lookup results are therefore
parameters (`none` = attribute missing).  It then calls
`self.__class__(net0.transfer(...), net1.transfer(...), mask=..., ...)` with
TWO positional arguments, which the `__init__` signature rejects with
`TypeError` before its body runs, so the construction after the arity check is
unreachable. -/
def rqsplineList_transfer {Net : Type} (tr : Net → Net)
    (net0I net1I : Option Net) : Except PyErr (CouplingConfig Net) := do
  let n0 ← net0I.elim (Except.error PyErr.attributeError) Except.ok
  let n1 ← net1I.elim (Except.error PyErr.attributeError) Except.ok
  let _ ← couplingInitArity 2
  .ok { nets := [tr n0, tr n1], mask := [], channels_axis := 1,
        zee2sym := false, label := "" }

/-- `MultiRQSplineList_.transfer` has exactly the same shape — `self.net0`,
`self.net1`, then a two-positional-argument constructor call (it additionally
passes the keyword `xlim=` which `MultiRQSplineList_.__init__` does not
declare, its parameter being `xlims`, so the keyword binding would raise
`TypeError` as well). -/
def multiRQSplineList_transfer {Net : Type} (tr : Net → Net)
    (net0I net1I : Option Net) : Except PyErr (CouplingConfig Net) := do
  let n0 ← net0I.elim (Except.error PyErr.attributeError) Except.ok
  let n1 ← net1I.elim (Except.error PyErr.attributeError) Except.ok
  let _ ← couplingInitArity 2
  .ok { nets := [tr n0, tr n1], mask := [], channels_axis := 1,
        zee2sym := false, label := "" }

end Transfer

/-- C7: the spline transfers can never produce an instance.
`RQSplineList_.transfer` and `MultiRQSplineList_.transfer` raise on every call
— `AttributeError` when `self.net0`/`self.net1` do not resolve, otherwise
`TypeError` from passing two positional arguments to an `__init__` that
accepts one — whichever way the attribute lookups turn out; only the base
`CouplingList_.transfer` (used by the shift and affine engines) returns a new
instance of the same configuration with every net replaced by its
`transfer(scale_factor)` rescaling and the mask kept or overridden. -/
theorem spline_transfer_never_succeeds {Net : Type} (tr : Net → Net)
    (net0I net1I : Option Net) (self : Transfer.CouplingConfig Net)
    (maskArg : Option (List Bool)) :
    (∃ e, Transfer.rqsplineList_transfer tr net0I net1I = .error e) ∧
    (∃ e, Transfer.multiRQSplineList_transfer tr net0I net1I = .error e) ∧
    Transfer.couplingList_transfer tr self maskArg =
      .ok { nets := self.nets.map tr, mask := maskArg.getD self.mask,
            channels_axis := self.channels_axis, zee2sym := self.zee2sym,
            label := self.label } := by
  refine ⟨?_, ?_, rfl⟩
  · cases net0I with
    | none => exact ⟨.attributeError, rfl⟩
    | some n0 =>
        cases net1I with
        | none => exact ⟨.attributeError, rfl⟩
        | some n1 => exact ⟨.typeError, rfl⟩
  · cases net0I with
    | none => exact ⟨.attributeError, rfl⟩
    | some n0 =>
        cases net1I with
        | none => exact ⟨.attributeError, rfl⟩
        | some n1 => exact ⟨.typeError, rfl⟩
